import Mathlib

/-!
Verification of the PDF text-location engine of rhizome-v2
(src/worker/scripts/find_text_in_pdf.py and
src/worker/scripts/get_pdf_selection_rects.py) against its
natural-language specification.

The Python sources are shallowly embedded: strings become `List Char`,
floats become `ℚ`, Python exceptions become `Except`/`Option`, and the
external collaborators (PyMuPDF page objects, difflib's SequenceMatcher)
are modelled from the spec's description of their interface, as noted on
each such definition.
-/

namespace Rhizome

abbrev Chars := List Char

/-- Whitespace per Python's regex class \s on str (the characters relevant
to this code base: ASCII whitespace plus the common Unicode space/line
separators). -/
def pyWs (c : Char) : Bool :=
  c = ' ' || c = '\t' || c = '\n' || c = '\r' || c = '\x0b' || c = '\x0c' ||
  c = '\u0085' || c = '\u00a0' || c = '\u2028' || c = '\u2029' || c = '\u3000'

/-- The quote-family class of the regex
["'`´‘’‚‛“”„‟]
in normalize_text_aggressive. -/
def isQuoteCh (c : Char) : Bool :=
  c = '\u0022' || c = '\u0027' || c = '\u0060' || c = '\u00b4' ||
  c = '\u2018' || c = '\u2019' || c = '\u201a' || c = '\u201b' ||
  c = '\u201c' || c = '\u201d' || c = '\u201e' || c = '\u201f'

/-- The dash-family class of the regex [‐-―−]. -/
def isDashCh (c : Char) : Bool :=
  c = '\u2010' || c = '\u2011' || c = '\u2012' || c = '\u2013' ||
  c = '\u2014' || c = '\u2015' || c = '\u2212'

/-- The punctuation class [,.!?;:] of the punctuation-spacing regexes. -/
def isPunctCh (c : Char) : Bool :=
  c = ',' || c = '.' || c = '!' || c = '?' || c = ';' || c = ':'

/-- Soft hyphen U+00AD. -/
def isShy (c : Char) : Bool := c = '\u00ad'

/-- Image of one character under the quote-folding substitution. -/
def quoteFold (c : Char) : Char := if isQuoteCh c then '@' else c

/-- Image of one character under the dash-folding substitution. -/
def dashFold (c : Char) : Char := if isDashCh c then '-' else c

/-- re.sub of the quote class by the sentinel character, from
normalize_text_aggressive. -/
def foldQuotes (s : Chars) : Chars := s.map quoteFold

/-- re.sub of the dash class by an ASCII hyphen. -/
def foldDashes (s : Chars) : Chars := s.map dashFold

/-- text.replace of the soft hyphen by the empty string. -/
def dropShy (s : Chars) : Chars := s.filter (fun c => !isShy c)

/-- Bool test that a character list starts with whitespace. -/
def headWs : Chars → Bool
  | [] => false
  | c :: _ => pyWs c

/-- Worker for re.sub(r'-\s+', '', s): a hyphen immediately followed by
whitespace is deleted together with that whole whitespace run.  The flag
records that we are inside a whitespace run being deleted. -/
def dropHyphenBreaksGo : Bool → Chars → Chars
  | _, [] => []
  | inRun, c :: cs =>
    if inRun && pyWs c then dropHyphenBreaksGo true cs
    else if c = '-' && headWs cs then dropHyphenBreaksGo true cs
    else c :: dropHyphenBreaksGo false cs

/-- re.sub(r'-\s+', '', s). -/
def dropHyphenBreaks (s : Chars) : Chars := dropHyphenBreaksGo false s

/-- re.sub(r'\s+', ' ', s): every maximal whitespace run becomes a single
ASCII space. -/
def collapseWsRuns : Chars → Chars
  | [] => []
  | [c] => if pyWs c then [' '] else [c]
  | a :: b :: r =>
    if pyWs a then
      (if pyWs b then collapseWsRuns (b :: r) else ' ' :: collapseWsRuns (b :: r))
    else a :: collapseWsRuns (b :: r)

/-- Bool test that the first character after the current whitespace run is
one of [,.!?;:]. -/
def punctAfterRun (s : Chars) : Bool :=
  match s.dropWhile pyWs with
  | [] => false
  | p :: _ => isPunctCh p

/-- re.sub(r'\s+([,.!?;:])', r'\1', s): a whitespace run immediately
followed by punctuation is deleted (a whitespace character is deleted
exactly when its run ends at a punctuation character). -/
def dropWsBeforePunct : Chars → Chars
  | [] => []
  | c :: cs =>
    if pyWs c && punctAfterRun cs then dropWsBeforePunct cs
    else c :: dropWsBeforePunct cs

/-- Worker for re.sub(r'([,.!?;:])\s+', r'\1 ', s): punctuation followed by
a whitespace run keeps the punctuation and replaces the run by one space. -/
def oneSpaceAfterPunctGo : Bool → Chars → Chars
  | _, [] => []
  | inRun, c :: cs =>
    if inRun && pyWs c then oneSpaceAfterPunctGo true cs
    else if isPunctCh c && headWs cs then c :: ' ' :: oneSpaceAfterPunctGo true cs
    else c :: oneSpaceAfterPunctGo false cs

/-- re.sub(r'([,.!?;:])\s+', r'\1 ', s). -/
def oneSpaceAfterPunct (s : Chars) : Chars := oneSpaceAfterPunctGo false s

/-- str.lstrip-like removal of leading whitespace. -/
def lstripWs (s : Chars) : Chars := s.dropWhile pyWs

/-- Removal of trailing whitespace. -/
def rstripWs : Chars → Chars
  | [] => []
  | c :: cs =>
    match rstripWs cs with
    | [] => if pyWs c then [] else [c]
    | r => c :: r

/-- str.strip(). -/
def pyStrip (s : Chars) : Chars := rstripWs (lstripWs s)

/-- normalize_whitespace from find_text_in_pdf.py:
re.sub(r'\s+', ' ', text). -/
def normalize_whitespace (s : Chars) : Chars := collapseWsRuns s

/-- normalize_text_aggressive from find_text_in_pdf.py: fold quotes to the
sentinel, fold dashes to hyphen, delete soft hyphens, delete hyphen plus
following whitespace (line-break hyphenation), collapse whitespace, delete
whitespace before punctuation, single space after punctuation, strip. -/
def normalize_text_aggressive (s : Chars) : Chars :=
  pyStrip (oneSpaceAfterPunct (dropWsBeforePunct (collapseWsRuns
    (dropHyphenBreaks (dropShy (foldDashes (foldQuotes s)))))))

/-- Worker for str.split(): accumulate the current word (reversed) and cut
at whitespace, dropping empty pieces. -/
def pySplitGo (acc : Chars) : Chars → List Chars
  | [] => if acc = [] then [] else [acc.reverse]
  | c :: cs =>
    if pyWs c then
      (if acc = [] then pySplitGo [] cs else acc.reverse :: pySplitGo [] cs)
    else pySplitGo (c :: acc) cs

/-- str.split() with no separator: split on whitespace runs, no empty
words. -/
def pySplit (s : Chars) : List Chars := pySplitGo [] s

/-- Join a word list with single spaces, as in ' '.join(words). -/
def joinSpace : List Chars → Chars
  | [] => []
  | [w] => w
  | w :: ws => w ++ ' ' :: joinSpace ws

namespace Sel

/-- normalize_whitespace from get_pdf_selection_rects.py:
' '.join(text.split()). -/
def normalize_whitespace (s : Chars) : Chars := joinSpace (pySplit s)

/-- normalize_text_aggressive from get_pdf_selection_rects.py: quote fold,
dash fold, soft-hyphen removal, whitespace collapse, strip.  This variant
has no hyphen-break removal and no punctuation-spacing steps. -/
def normalize_text_aggressive (s : Chars) : Chars :=
  pyStrip (collapseWsRuns (dropShy (foldDashes (foldQuotes s))))

end Sel

/-! ## Data model

Geometry in page coordinates, per spec section 3.  Coordinates are exact
rationals standing for the Python floats. -/

structure Rect where
  x0 : ℚ
  y0 : ℚ
  x1 : ℚ
  y1 : ℚ
deriving DecidableEq

def Rect.width (r : Rect) : ℚ := r.x1 - r.x0

def Rect.height (r : Rect) : ℚ := r.y1 - r.y0

/-- One entry of page.get_text("words"): the first five components of the
PyMuPDF word tuple (x0, y0, x1, y1, word). -/
structure Word where
  x0 : ℚ
  y0 : ℚ
  x1 : ℚ
  y1 : ℚ
  text : Chars
deriving DecidableEq

def Word.rect (w : Word) : Rect := ⟨w.x0, w.y0, w.x1, w.y1⟩

/-- Modelled from the spec: a PyMuPDF page is external to the repository;
per spec sections 1, 3 and 6 the engine consumes its extracted text
(page.get_text()), its word stream with per-word boxes
(page.get_text("words")), its line bounding boxes (the line bboxes of
page.get_text("dict")) and its bounds (page.rect). -/
structure Page where
  text : Chars
  words : List Word
  lines : List Rect
  bounds : Rect
deriving DecidableEq

/-- Output rectangle dict of format_results: x, y, width, height. -/
structure RectOut where
  x : ℚ
  y : ℚ
  width : ℚ
  height : ℚ
deriving DecidableEq

/-- format_results (shared shape of both scripts): each rectangle becomes
the dict with x = x0, y = y0, width = x1 - x0, height = y1 - y0. -/
def format_results (rs : List Rect) : List RectOut :=
  rs.map (fun r => ⟨r.x0, r.y0, r.x1 - r.x0, r.y1 - r.y0⟩)

/-! ## Word index (get_words_in_range, identical in both scripts) -/

/-- Loop of get_words_in_range: char_pos accumulates word offsets, a word
whose range [word_start, word_end) overlaps [start_pos, end_pos) under the
test word_end > start_pos and word_start < end_pos contributes its
rectangle; char_pos advances by the word length plus one for the space. -/
def get_words_in_range_go : List Word → ℕ → ℤ → ℤ → List Rect
  | [], _, _, _ => []
  | w :: ws, pos, s, e =>
    (if s < ((pos + w.text.length : ℕ) : ℤ) ∧ ((pos : ℕ) : ℤ) < e then [w.rect] else [])
      ++ get_words_in_range_go ws (pos + w.text.length + 1) s e

/-- get_words_in_range from both scripts. -/
def get_words_in_range (p : Page) (startPos endPos : ℤ) : List Rect :=
  get_words_in_range_go p.words 0 startPos endPos

/-- Specification-side word index: each word annotated with its
[charStart, charEnd) range under the one-synthetic-space convention of
spec section 3. -/
def wordSpansGo : List Word → ℕ → List (Word × ℕ × ℕ)
  | [], _ => []
  | w :: ws, pos =>
    (w, pos, pos + w.text.length) :: wordSpansGo ws (pos + w.text.length + 1)

def wordSpans (ws : List Word) : List (Word × ℕ × ℕ) := wordSpansGo ws 0

/-! ## Substring search primitives -/

/-- str.lower(), characterwise. -/
def lowerStr (s : Chars) : Chars := s.map Char.toLower

/-- Bool test that needle is a prefix of hay. -/
def prefMatch : Chars → Chars → Bool
  | [], _ => true
  | _ :: _, [] => false
  | a :: as, b :: bs => a = b && prefMatch as bs

/-- All positions at which needle occurs in hay, ascending. -/
def occPositions (needle hay : Chars) : List ℕ :=
  (List.range (hay.length + 1)).filter (fun i => prefMatch needle (hay.drop i))

/-- str.find: index of the leftmost occurrence, or -1. -/
def pyFind (needle hay : Chars) : ℤ :=
  match occPositions needle hay with
  | [] => -1
  | i :: _ => (i : ℤ)

/-- Python slice s[i:j] for 0 ≤ i ≤ j (the only shape the scripts use). -/
def pySlice (s : Chars) (i j : ℤ) : Chars :=
  (s.drop i.toNat).take (j - i).toNat

/-- Python slice s[-n:]. -/
def takeLastN (s : Chars) (n : ℕ) : Chars := s.drop (s.length - n)

/-- Bounding box of the word rectangles overlapping a character range
(the degenerate box when none do). -/
def rangeBBox (p : Page) (s e : ℤ) : Rect :=
  match get_words_in_range p s e with
  | [] => ⟨0, 0, 0, 0⟩
  | r :: rs =>
    rs.foldl (fun a q => ⟨min a.x0 q.x0, min a.y0 q.y0, max a.x1 q.x1, max a.y1 q.y1⟩) r

/-- Modelled from the spec: PyMuPDF's page.search_for is external to the
repository; per spec sections 4.6 and 6 it is an exact substring search of
the page text that returns one bounding rectangle per occurrence (empty
for the empty needle), with geometry taken from the page's word boxes. -/
def Page.searchFor (p : Page) (needle : Chars) : List Rect :=
  if needle = [] then []
  else (occPositions needle p.text).map
    (fun (i : ℕ) => rangeBBox p (i : ℤ) ((i : ℤ) + needle.length))

/-! ## Similarity scanner -/

/-- Length of the longest common prefix of two character lists. -/
def commonLen : Chars → Chars → ℕ
  | a :: as, b :: bs => if a = b then commonLen as bs + 1 else 0
  | _, _ => 0

/-- All index pairs (i, j) with i < m, j < n, ascending in i then j. -/
def gridPairs (m n : ℕ) : List (ℕ × ℕ) :=
  (List.range m).flatMap (fun i => (List.range n).map (fun j => (i, j)))

/-- Worker for the longest-match scan; the accumulator is matched
strictly. -/
def bestOverGo (a b : Chars) : List (ℕ × ℕ) → ℕ × ℕ × ℕ → ℕ × ℕ × ℕ
  | [], acc => acc
  | (i, j) :: rest, (bi, bj, bk) =>
    if bk < commonLen (a.drop i) (b.drop j)
    then bestOverGo a b rest (i, j, commonLen (a.drop i) (b.drop j))
    else bestOverGo a b rest (bi, bj, bk)

/-- Modelled from the spec: difflib.SequenceMatcher.find_longest_match,
described in spec section 4.3 as a greedy longest-common-block matcher.
Scans all pairs of start positions, keeping the longest block, ties broken
by the earliest position in a then in b. -/
def bestOver (a b : Chars) : ℕ × ℕ × ℕ :=
  bestOverGo a b (gridPairs a.length b.length) (0, 0, 0)

/-- Total matched characters of the recursive longest-common-block
decomposition, with a fuel bound; fuel a.length + b.length always
suffices since every recursive level removes at least one character from
each side being recursed into. -/
def matchTotal : ℕ → Chars → Chars → ℕ
  | 0, _, _ => 0
  | fuel + 1, a, b =>
    match bestOver a b with
    | (i, j, k) =>
      if k = 0 then 0
      else k + matchTotal fuel (a.take i) (b.take j)
        + matchTotal fuel (a.drop (i + k)) (b.drop (j + k))

/-- Modelled from the spec: SequenceMatcher.ratio, per spec section 4.3
twice the number of matching characters divided by the sum of the two
lengths (1 when both are empty, as in difflib). -/
def seqRatio (a b : Chars) : ℚ :=
  if a.length + b.length = 0 then 1
  else ((2 * matchTotal (a.length + b.length) a b : ℕ) : ℚ)
    / ((a.length + b.length : ℕ) : ℚ)

/-- Step size of fuzzy_search_in_page in find_text_in_pdf.py:
min(10, max(5, search_len // 20)). -/
def step_size (searchLen : ℕ) : ℕ := min 10 (max 5 (searchLen / 20))

/-- Offsets of Python range(0, stop, step) for an integer stop. -/
def scanStops (total : ℤ) (step : ℕ) : List ℕ :=
  if total ≤ 0 ∨ step = 0 then []
  else List.range' 0 ((total.toNat + step - 1) / step) step

/-- Window start offsets scanned by find_text_in_pdf.py's fuzzy search:
range(0, len(page_normalized) - search_len + 1, step_size). -/
def fuzzyStops (p : Page) (q : Chars) : List ℕ :=
  scanStops (((lowerStr (normalize_text_aggressive p.text)).length : ℤ)
    - (q.length : ℤ) + 1) (step_size q.length)

/-- Best-match loop of find_text_in_pdf.py's fuzzy search: strict
improvement updates (best_ratio, best_position); no early exit. -/
def fuzzyBestGo (sN : Chars) (wlen : ℕ) (pN : Chars) : List ℕ → ℚ × ℤ → ℚ × ℤ
  | [], best => best
  | i :: rest, best =>
    if best.1 < seqRatio sN ((pN.drop i).take wlen)
    then fuzzyBestGo sN wlen pN rest (seqRatio sN ((pN.drop i).take wlen), (i : ℤ))
    else fuzzyBestGo sN wlen pN rest best

/-- fuzzy_search_in_page from find_text_in_pdf.py.  Thresholds below 0.90
are raised to 0.90 for queries shorter than 50 characters; on acceptance
the word rectangles of the best window are returned together with the best
ratio. -/
def fuzzy_search_in_page (p : Page) (searchText : Chars) (threshold : ℚ) :
    List Rect × ℚ :=
  let searchLen := searchText.length
  let th := if searchLen < 50 then max threshold (9/10) else threshold
  let sN := lowerStr (normalize_text_aggressive searchText)
  let pN := lowerStr (normalize_text_aggressive p.text)
  let best := fuzzyBestGo sN searchLen pN (fuzzyStops p searchText) (0, -1)
  if th ≤ best.1 then
    let wr := get_words_in_range p best.2 (best.2 + searchLen)
    if wr = [] then ([], best.1) else (wr, best.1)
  else ([], best.1)

namespace Sel

/-- Step size of fuzzy_search_in_page in get_pdf_selection_rects.py:
5 if search_len < 100 else 10. -/
def step_size (searchLen : ℕ) : ℕ := if searchLen < 100 then 5 else 10

/-- Window start offsets scanned by get_pdf_selection_rects.py's fuzzy
search. -/
def fuzzyStops (p : Page) (q : Chars) : List ℕ :=
  scanStops (((lowerStr (Sel.normalize_text_aggressive p.text)).length : ℤ)
    - (q.length : ℤ) + 1) (Sel.step_size q.length)

/-- Best-match loop of get_pdf_selection_rects.py's fuzzy search: strict
improvement updates the best pair, and an improvement beyond 0.95 breaks
out of the loop. -/
def fuzzyBestGo (sN : Chars) (wlen : ℕ) (pN : Chars) : List ℕ → ℚ × ℤ → ℚ × ℤ
  | [], best => best
  | i :: rest, best =>
    if best.1 < seqRatio sN ((pN.drop i).take wlen) then
      (if (19/20 : ℚ) < seqRatio sN ((pN.drop i).take wlen)
       then (seqRatio sN ((pN.drop i).take wlen), (i : ℤ))
       else Sel.fuzzyBestGo sN wlen pN rest (seqRatio sN ((pN.drop i).take wlen), (i : ℤ)))
    else Sel.fuzzyBestGo sN wlen pN rest best

/-- fuzzy_search_in_page from get_pdf_selection_rects.py: the caller's
threshold is applied unchanged (no short-query adjustment), and on
acceptance the word rectangles are returned even when empty. -/
def fuzzy_search_in_page (p : Page) (searchText : Chars) (threshold : ℚ) :
    List Rect × ℚ :=
  let searchLen := searchText.length
  let sN := lowerStr (Sel.normalize_text_aggressive searchText)
  let pN := lowerStr (Sel.normalize_text_aggressive p.text)
  let best := Sel.fuzzyBestGo sN searchLen pN (Sel.fuzzyStops p searchText) (0, -1)
  if threshold ≤ best.1 then
    (get_words_in_range p best.2 (best.2 + searchLen), best.1)
  else ([], best.1)

end Sel

/-! ## Remaining strategies of find_text_in_pdf.py -/

/-- case_insensitive_search: find the lowered query in the lowered page
text and exact-search the actually-occurring slice; on failure retry on
whitespace-normalized text and search the normalized query. -/
def case_insensitive_search (p : Page) (searchText : Chars) : List Rect :=
  let idx := pyFind (lowerStr searchText) (lowerStr p.text)
  if idx = -1 then
    (if pyFind (lowerStr (normalize_whitespace searchText))
        (lowerStr (normalize_whitespace p.text)) = -1 then []
     else p.searchFor (normalize_whitespace searchText))
  else p.searchFor (pySlice p.text idx (idx + searchText.length))

/-- Bool test for the sentence-ending characters of the regex
[.!?](?:\s|$). -/
def isSentEnd (c : Char) : Bool := c = '.' || c = '!' || c = '?'

/-- End position (exclusive, including the consumed whitespace character if
any) of the first regex match of [.!?](?:\s|$), if any. -/
def firstSentenceEnd : Chars → Option ℕ
  | [] => none
  | c :: cs =>
    if isSentEnd c ∧ (cs = [] ∨ headWs cs) then some (if headWs cs then 2 else 1)
    else (firstSentenceEnd cs).map (· + 1)

/-- extract_first_sentence: text up to the first sentence boundary,
stripped; None when there is no boundary. -/
def extract_first_sentence (s : Chars) : Option Chars :=
  (firstSentenceEnd s).map (fun e => pyStrip (s.take e))

/-- get_text_blocks_between_rects: every line bbox whose vertical span lies
between the top of the start rectangle and the bottom of the end
rectangle; None when there are none. -/
def get_text_blocks_between_rects (p : Page) (startRect endRect : Rect) :
    Option (List Rect) :=
  let rs := p.lines.filter (fun lr => startRect.y0 ≤ lr.y0 ∧ lr.y1 ≤ endRect.y1)
  if rs = [] then none else some rs

/-- find_text_by_start_and_end_anchors: locate the start and end anchors
(exact then whitespace-normalized), find the full text in normalized (then
raw) page text, slice the original page text at that index, search for the
slice, and fall back to the line bboxes between the first anchor
rectangles.  Note the source reuses the index found in normalized text to
slice the original text. -/
def find_text_by_start_and_end_anchors (p : Page) (fullText startText : Chars)
    (fullLength : ℕ) (endTextOpt : Option Chars) : Option (List Rect) :=
  let endText? : Option Chars :=
    match endTextOpt with
    | some e => some e
    | none => if fullText.length > 50 then some (takeLastN fullText 50) else none
  match endText? with
  | none => none
  | some endText =>
    let startRects :=
      (fun r => if r = [] then p.searchFor (normalize_whitespace startText) else r)
        (p.searchFor startText)
    if startRects = [] then none
    else
      let endRects :=
        (fun r => if r = [] then p.searchFor (normalize_whitespace endText) else r)
          (p.searchFor endText)
      if endRects = [] then none
      else
        let idx :=
          (fun i => if i = -1 then pyFind fullText p.text else i)
            (pyFind (lowerStr (normalize_whitespace fullText))
              (lowerStr (normalize_whitespace p.text)))
        if idx = -1 then none
        else
          let fullRects := p.searchFor (pySlice p.text idx (idx + fullText.length))
          if fullRects ≠ [] then some fullRects
          else
            match startRects, endRects with
            | sr :: _, er :: _ => get_text_blocks_between_rects p sr er
            | _, _ => none

/-! ## Rectangle expansion -/

/-- Python int(): truncation toward zero. -/
def truncQ (x : ℚ) : ℤ := if x < 0 then -((-x).floor) else x.floor

/-- One iteration of the line loop of the multi-line branch: line 0 is the
found rectangle itself; every later line sits at the same left margin,
extends by chars_per_line * char_width clamped to the page, at successive
vertical offsets of 1.2 line heights, and is discarded when it falls below
the page bottom. -/
def expandLine (r : Rect) (charsPerLine charWidth : ℚ) (pageRect : Rect)
    (lineNum : ℕ) : Option Rect :=
  if lineNum = 0 then some r
  else
    if r.y1 + r.height * (6/5) * (lineNum : ℚ) ≤ pageRect.y1 then
      some ⟨r.x0, r.y0 + r.height * (6/5) * (lineNum : ℚ),
        min (r.x0 + charsPerLine * charWidth) pageRect.x1,
        r.y1 + r.height * (6/5) * (lineNum : ℚ)⟩
    else none

/-- Body of the per-rectangle loop of expand_rectangles_for_long_text.
The single-line branch extends the right edge by char_width *
(full - matched) clamped to the page; when the extension reaches 95% of
the page width the multi-line branch emits one rectangle per estimated
line via expandLine.  A zero character width makes the chars-per-line
division raise, modelled as an error. -/
def expandOne (r : Rect) (matchedLength fullLength : ℕ) (pageRect : Rect) :
    Except String (List Rect) :=
  let charWidth := r.width / (matchedLength : ℚ)
  let newX1 := min (r.x1 + charWidth * ((fullLength : ℚ) - (matchedLength : ℚ))) pageRect.x1
  if pageRect.x1 * (19/20) ≤ newX1 then
    if charWidth = 0 then .error "float division by zero"
    else
      .ok ((List.range (truncQ ((fullLength : ℚ) / (r.width / charWidth)) + 1).toNat).filterMap
        (expandLine r (r.width / charWidth) charWidth pageRect))
  else .ok [⟨r.x0, r.y0, newX1, r.y1⟩]

/-- Sequential accumulation over the matched rectangles; a raised error
aborts the whole expansion, as a Python exception would. -/
def expandGo (matchedLength fullLength : ℕ) (pageRect : Rect) :
    List Rect → Except String (List Rect)
  | [] => .ok []
  | r :: rest => do
    let h ← expandOne r matchedLength fullLength pageRect
    let t ← expandGo matchedLength fullLength pageRect rest
    pure (h ++ t)

/-- expand_rectangles_for_long_text.  The expansion_ratio division on entry
raises when matched_length is zero and the list is nonempty. -/
def expand_rectangles_for_long_text (textInstances : List Rect)
    (matchedLength fullLength : ℕ) (p : Page) : Except String (List Rect) :=
  if textInstances = [] then .ok []
  else if matchedLength = 0 then .error "division by zero"
  else expandGo matchedLength fullLength p.bounds textInstances

/-! ## Strategy cascade of find_text_in_pdf.py -/

/-- Modelled from the spec: the script returns only the rectangle list; the
MatchResult of spec section 3 adds the diagnostic strategy id (spec
numbering 1 to 8) and confidence (1 for exact strategies, the similarity
ratio for the fuzzy strategy, the matched-to-requested length ratio for
expansion fallbacks, 0 for total failure). -/
structure MatchResult where
  rects : List RectOut
  strategy : ℕ
  conf : ℚ
deriving DecidableEq

/-- Strategy 8 (code strategy 6): the first 100 characters, exact then
whitespace-normalized, expanded to the full length. -/
def findStrategy8 (p : Page) (q : Chars) : List ℕ × Except String MatchResult :=
  let ti :=
    (fun r => if r = [] then p.searchFor (normalize_whitespace (q.take 100)) else r)
      (p.searchFor (q.take 100))
  if ti ≠ [] then
    match expand_rectangles_for_long_text ti 100 q.length p with
    | .ok ei => ([1, 2, 3, 4, 5, 6, 7, 8], .ok ⟨format_results ei, 8, (100 : ℚ) / (q.length : ℚ)⟩)
    | .error m => ([1, 2, 3, 4, 5, 6, 7, 8], .error m)
  else ([1, 2, 3, 4, 5, 6, 7, 8], .ok ⟨[], 0, 0⟩)

/-- Strategy 7 (code strategy 5): start and end anchors, first and last 50
characters. -/
def findStrategy7 (p : Page) (q : Chars) : List ℕ × Except String MatchResult :=
  let an :=
    (find_text_by_start_and_end_anchors p q (q.take 50) q.length
      (some (takeLastN q 50))).getD []
  if an ≠ [] then ([1, 2, 3, 4, 5, 6, 7], .ok ⟨format_results an, 7, 1⟩)
  else findStrategy8 p q

/-- Strategy 6 (code strategy 4): first sentence, if longer than 20
characters; on a hit, anchor-based expansion, falling back to rectangle
expansion. -/
def findStrategy6 (p : Page) (q : Chars) : List ℕ × Except String MatchResult :=
  match extract_first_sentence q with
  | none => findStrategy7 p q
  | some fs =>
    if fs.length > 20 then
      let ti :=
        (fun r => if r = [] then p.searchFor (normalize_whitespace fs) else r)
          (p.searchFor fs)
      if ti ≠ [] then
        let an := (find_text_by_start_and_end_anchors p q fs q.length none).getD []
        if an ≠ [] then ([1, 2, 3, 4, 5, 6], .ok ⟨format_results an, 6, 1⟩)
        else
          match expand_rectangles_for_long_text ti fs.length q.length p with
          | .ok ei =>
            ([1, 2, 3, 4, 5, 6], .ok ⟨format_results ei, 6, (fs.length : ℚ) / (q.length : ℚ)⟩)
          | .error m => ([1, 2, 3, 4, 5, 6], .error m)
      else findStrategy7 p q
    else findStrategy7 p q

/-- find_text_in_pdf's strategy cascade, with the list of attempted
strategies (spec numbering) alongside the result.  Code strategy 2.5
(spec strategy 3) computes found_at and probes anchors but never returns
rectangles, so it contributes only its attempt mark.  Python exceptions
surface as Except.error. -/
def find_text_in_pdf_core (p : Page) (q : Chars) : List ℕ × Except String MatchResult :=
  let t1 := p.searchFor q
  if t1 ≠ [] then ([1], .ok ⟨format_results t1, 1, 1⟩)
  else
    let t2 := p.searchFor (normalize_whitespace q)
    if t2 ≠ [] then ([1, 2], .ok ⟨format_results t2, 2, 1⟩)
    else
      let fz := fuzzy_search_in_page p q (17/20)
      if fz.1 ≠ [] then ([1, 2, 3, 4], .ok ⟨format_results fz.1, 4, fz.2⟩)
      else
        let t3 := case_insensitive_search p q
        if t3 ≠ [] then ([1, 2, 3, 4, 5], .ok ⟨format_results t3, 5, 1⟩)
        else
          if q.length > 100 then findStrategy6 p q
          else ([1, 2, 3, 4, 5], .ok ⟨[], 0, 0⟩)

/-- The wire-level result of find_text_in_pdf: the rectangle list, with the
outer exception handler turning any error into the empty list. -/
def find_text_in_pdf (p : Page) (q : Chars) : List RectOut :=
  match (find_text_in_pdf_core p q).2 with
  | .ok r => r.rects
  | .error _ => []

/-- The diagnostic MatchResult of a call (empty, strategy 0, confidence 0
when everything failed or an exception was swallowed). -/
def find_text_result (p : Page) (q : Chars) : MatchResult :=
  match (find_text_in_pdf_core p q).2 with
  | .ok r => r
  | .error _ => ⟨[], 0, 0⟩

/-- Modelled from the spec: fitz document page lookup doc[page_num - 1];
PyMuPDF accepts indices in [-page_count, page_count) with negative indices
counting from the end, and raises otherwise. -/
def loadPage (doc : List Page) (idx : ℤ) : Option Page :=
  if 0 ≤ idx ∧ idx < (doc.length : ℤ) then doc.get? idx.toNat
  else if -(doc.length : ℤ) ≤ idx ∧ idx < 0 then doc.get? (doc.length - (-idx).toNat)
  else none

/-- Whole-call embedding of find_text_in_pdf including the page lookup: a
bad page index raises before any strategy runs and the handler returns the
empty list (with an empty attempt list). -/
def find_text_in_pdf_call (doc : List Page) (pageNum : ℤ) (q : Chars) :
    List ℕ × List RectOut :=
  match loadPage doc (pageNum - 1) with
  | none => ([], [])
  | some p =>
    ((find_text_in_pdf_core p q).1,
      match (find_text_in_pdf_core p q).2 with
      | .ok r => r.rects
      | .error _ => [])

namespace Sel

/-- get_selection_rectangles from get_pdf_selection_rects.py: exact,
whitespace-normalized, aggressively-normalized (searching the raw page for
the normalized query), then fuzzy; empty list when all fail. -/
def get_selection_rectangles (p : Page) (q : Chars) : List RectOut :=
  let q1 := p.searchFor q
  if q1 ≠ [] then format_results q1
  else
    let q2 := p.searchFor (Sel.normalize_whitespace q)
    if q2 ≠ [] then format_results q2
    else
      let q3 := p.searchFor (Sel.normalize_text_aggressive q)
      if q3 ≠ [] then format_results q3
      else
        let fz := Sel.fuzzy_search_in_page p q (17/20)
        if fz.1 ≠ [] then format_results fz.1 else []

end Sel

/-! ## Derived measures used by the claims -/

def totalWidth (rs : List Rect) : ℚ := (rs.map Rect.width).sum

/-- Geometric containment of inner in outer. -/
def coversRect (outer inner : Rect) : Prop :=
  outer.x0 ≤ inner.x0 ∧ outer.y0 ≤ inner.y0 ∧ inner.x1 ≤ outer.x1 ∧ inner.y1 ≤ outer.y1

/-- A rectangle lying within the page bounds. -/
def inBounds (r : Rect) (page : Rect) : Prop :=
  page.x0 ≤ r.x0 ∧ page.y0 ≤ r.y0 ∧ r.x1 ≤ page.x1 ∧ r.y1 ≤ page.y1

/-! ## Concrete pages and queries used by the witnesses and counterexamples -/

/-- Page text: He said “free will” is real. (smart quotes). -/
def fwText : Chars :=
  ['H', 'e', ' ', 's', 'a', 'i', 'd', ' ', '“', 'f', 'r', 'e', 'e', ' ',
   'w', 'i', 'l', 'l', '”', ' ', 'i', 's', ' ', 'r', 'e', 'a', 'l', '.']

/-- Query: "free will" (straight quotes). -/
def fwQuery : Chars :=
  ['"', 'f', 'r', 'e', 'e', ' ', 'w', 'i', 'l', 'l', '"']

/-- The smart-quoted phrase as it occurs in the page text. -/
def fwSmart : Chars :=
  ['“', 'f', 'r', 'e', 'e', ' ', 'w', 'i', 'l', 'l', '”']

def fwPage : Page :=
  { text := fwText
    words := [⟨0, 0, 10, 10, ['H', 'e']⟩, ⟨12, 0, 30, 10, ['s', 'a', 'i', 'd']⟩,
              ⟨32, 0, 55, 10, ['“', 'f', 'r', 'e', 'e']⟩,
              ⟨57, 0, 80, 10, ['w', 'i', 'l', 'l', '”']⟩,
              ⟨82, 0, 90, 10, ['i', 's']⟩, ⟨92, 0, 110, 10, ['r', 'e', 'a', 'l', '.']⟩]
    lines := [⟨0, 0, 110, 10⟩]
    bounds := ⟨0, 0, 200, 100⟩ }

/-- Page text: hello world. -/
def hwPage : Page :=
  { text := ['h', 'e', 'l', 'l', 'o', ' ', 'w', 'o', 'r', 'l', 'd']
    words := [⟨0, 0, 50, 10, ['h', 'e', 'l', 'l', 'o']⟩,
              ⟨60, 0, 110, 10, ['w', 'o', 'r', 'l', 'd']⟩]
    lines := [⟨0, 0, 110, 10⟩]
    bounds := ⟨0, 0, 200, 100⟩ }

def zebraQuery : Chars := ['z', 'e', 'b', 'r', 'a']

def worldQuery : Chars := ['w', 'o', 'r', 'l', 'd']

/-- Page whose text is a 20-character window 85 percent similar to the
short query below. -/
def c7Page : Page :=
  { text := ['a', 'b', 'c', 'd', 'e', ' ', 'f', 'g', 'h', 'i', 'j', ' ',
             'k', 'l', 'm', 'n', 'o', 'x', 'y', 'z']
    words := [⟨0, 0, 25, 10, ['a', 'b', 'c', 'd', 'e']⟩,
              ⟨30, 0, 55, 10, ['f', 'g', 'h', 'i', 'j']⟩,
              ⟨60, 0, 100, 10, ['k', 'l', 'm', 'n', 'o', 'x', 'y', 'z']⟩]
    lines := [⟨0, 0, 100, 10⟩]
    bounds := ⟨0, 0, 200, 100⟩ }

def c7Query : Chars :=
  ['a', 'b', 'c', 'd', 'e', ' ', 'f', 'g', 'h', 'i', 'j', ' ',
   'k', 'l', 'm', 'n', 'o', ' ', 'p', 'q']

/-- Page of 120 identical characters, for the step-size counterexample. -/
def c6Page : Page :=
  { text := List.replicate 120 'a'
    words := [⟨0, 0, 100, 10, List.replicate 120 'a'⟩]
    lines := [⟨0, 0, 100, 10⟩]
    bounds := ⟨0, 0, 200, 100⟩ }

def c6Query : Chars := List.replicate 100 'b'

/-- Page used only for its bounds by the expansion counterexamples. -/
def c9Page : Page :=
  { text := [], words := [], lines := [], bounds := ⟨0, 0, 100, 100⟩ }

/-- A 100-character match rectangle near the bottom right of c9Page: its
single-line extension hits the right margin and every synthesized extra
line falls below the page bottom. -/
def c9Rect : Rect := ⟨0, 90, 96, 100⟩

/-- A zero-width in-bounds rectangle at the right edge of c9Page: the
multi-line branch divides by its zero character width. -/
def c10Rect : Rect := ⟨100, 0, 100, 10⟩

/-- A well-behaved matched rectangle for the expansion witnesses. -/
def okRect : Rect := ⟨0, 0, 30, 10⟩

/-- The aggressively-normalized, lowered form of both fwQuery and fwSmart. -/
def fwSN : Chars :=
  ['@', 'f', 'r', 'e', 'e', ' ', 'w', 'i', 'l', 'l', '@']

/-- The aggressively-normalized, lowered form of fwPage's text. -/
def fwPN : Chars :=
  ['h', 'e', ' ', 's', 'a', 'i', 'd', ' ', '@', 'f', 'r', 'e', 'e', ' ',
   'w', 'i', 'l', 'l', '@', ' ', 'i', 's', ' ', 'r', 'e', 'a', 'l', '.']

/-! ## Normal-form predicates for the normalizers -/

/-- Every whitespace character is a plain ASCII space. -/
def spaceOnlyWs (t : Chars) : Prop := ∀ c ∈ t, pyWs c = true → c = ' '

/-- No two adjacent whitespace characters. -/
def noAdjWs (t : Chars) : Prop :=
  List.Chain' (fun a b => ¬(pyWs a = true ∧ pyWs b = true)) t

/-- Whitespace-canonical: every whitespace character is a space and no two
are adjacent. -/
def wsCanon (t : Chars) : Prop := spaceOnlyWs t ∧ noAdjWs t

/-- No hyphen immediately followed by whitespace. -/
def noHypWs (t : Chars) : Prop :=
  List.Chain' (fun a b => ¬(a = '-' ∧ pyWs b = true)) t

/-- No whitespace immediately followed by punctuation. -/
def noWsPunct (t : Chars) : Prop :=
  List.Chain' (fun a b => ¬(pyWs a = true ∧ isPunctCh b = true)) t

/-- Separator-prefixed join of a word list: empty for no words, otherwise
a space followed by the space-join. -/
def sepJoin : List Chars → Chars
  | [] => []
  | w :: ws => ' ' :: joinSpace (w :: ws)

/-! ## Word index lemmas -/

theorem get_words_in_range_go_eq (ws : List Word) (pos : ℕ) (s e : ℤ) :
    get_words_in_range_go ws pos s e =
      ((wordSpansGo ws pos).filter
        (fun t => decide (s < (t.2.2 : ℤ) ∧ (t.2.1 : ℤ) < e))).map (fun t => t.1.rect) := by
  induction ws generalizing pos with
  | nil => rfl
  | cons w rest ih =>
    simp only [get_words_in_range_go, wordSpansGo, List.filter_cons]
    push_cast
    by_cases h1 : s < (pos : ℤ) + (w.text.length : ℤ) <;>
      by_cases h2 : (pos : ℤ) < e <;>
      simp [h1, h2, ih]

theorem wordSpansGo_map_fst (ws : List Word) (pos : ℕ) :
    (wordSpansGo ws pos).map (fun t => t.1) = ws := by
  induction ws generalizing pos with
  | nil => rfl
  | cons w rest ih => simp [wordSpansGo, ih]

/-- C4: get_words_in_range returns exactly the rectangles of the words
whose computed [charStart, charEnd) range overlaps [start, end) under the
test charEnd > start and charStart < end, and the result is a sublist of
the page's word rectangles in original order (hence non-decreasing word
order); with no overlapping word it is the empty list, by the filter
characterization. -/
theorem c4_words_in_range (p : Page) (s e : ℤ) :
    get_words_in_range p s e =
      ((wordSpans p.words).filter
        (fun t => decide (s < (t.2.2 : ℤ) ∧ (t.2.1 : ℤ) < e))).map (fun t => t.1.rect) ∧
    (get_words_in_range p s e).Sublist (p.words.map Word.rect) := by
  constructor
  · exact get_words_in_range_go_eq p.words 0 s e
  · rw [get_words_in_range, get_words_in_range_go_eq]
    have h1 : List.Sublist
        ((wordSpans p.words).filter
          (fun t => decide (s < (t.2.2 : ℤ) ∧ (t.2.1 : ℤ) < e)))
        (wordSpans p.words) :=
      List.filter_sublist _
    have h2 := (h1.map (fun t => t.1)).map Word.rect
    have h3 : (wordSpans p.words).map (fun t => t.1) = p.words := wordSpansGo_map_fst p.words 0
    rw [h3] at h2
    simpa [wordSpans, List.map_map, Function.comp] using h2

/-! ## Scan offset lemmas -/

theorem lt_ceilDiv_iff (t step k : ℕ) (hs : 0 < step) (ht : 0 < t) :
    k < (t + step - 1) / step ↔ step * k < t := by
  have h1 : step * ((t + step - 1) / step) + (t + step - 1) % step = t + step - 1 :=
    Nat.div_add_mod _ _
  have h2 : (t + step - 1) % step < step := Nat.mod_lt _ hs
  constructor
  · intro hk
    have hmul : step * (k + 1) ≤ step * ((t + step - 1) / step) :=
      Nat.mul_le_mul_left step hk
    rw [Nat.mul_succ] at hmul
    omega
  · intro hlt
    by_contra hge
    have hmul : step * ((t + step - 1) / step) ≤ step * k :=
      Nat.mul_le_mul_left step (by omega)
    omega

theorem scanStops_mem (total : ℤ) (step : ℕ) (hs : step ≠ 0) (i : ℕ) :
    i ∈ scanStops total step ↔ step ∣ i ∧ (i : ℤ) < total := by
  rw [scanStops]
  by_cases ht : total ≤ 0
  · simp only [ht, true_or, if_pos]
    simp only [List.not_mem_nil, false_iff, not_and]
    intro _ hlt
    omega
  · have htn : 0 < total.toNat := by omega
    have hcast : (total.toNat : ℤ) = total := Int.toNat_of_nonneg (by omega)
    simp only [ht, hs, or_self, if_neg, not_false_iff, List.mem_range']
    constructor
    · rintro ⟨k, hk, rfl⟩
      refine ⟨⟨k, by ring⟩, ?_⟩
      have := (lt_ceilDiv_iff total.toNat step k (by omega) htn).mp hk
      push_cast
      omega
    · rintro ⟨⟨k, rfl⟩, hbound⟩
      refine ⟨k, ?_, by ring⟩
      refine (lt_ceilDiv_iff total.toNat step k (by omega) htn).mpr ?_
      push_cast at hbound
      omega

set_option maxRecDepth 100000 in
/-- C6 counterexample: on a page whose normalized text has 120 characters
and a query of 100 characters, the get_pdf_selection_rects scanner visits
the offsets 0, 10, 20, not the offsets of step
min(10, max(5, len(query) // 20)) = 5 required by the claim. -/
theorem c6_counterexample :
    Sel.fuzzyStops c6Page c6Query = [0, 10, 20] ∧
    scanStops (((lowerStr (Sel.normalize_text_aggressive c6Page.text)).length : ℤ)
        - (c6Query.length : ℤ) + 1) (min 10 (max 5 (c6Query.length / 20)))
      = [0, 5, 10, 15, 20] ∧
    Sel.fuzzyStops c6Page c6Query ≠
      scanStops (((lowerStr (Sel.normalize_text_aggressive c6Page.text)).length : ℤ)
        - (c6Query.length : ℤ) + 1) (min 10 (max 5 (c6Query.length / 20))) := by
  refine ⟨by decide, by decide, by decide⟩

/-- C6 amended: the find_text_in_pdf scanner slides at the fixed step
min(10, max(5, len(query) // 20)); the get_pdf_selection_rects scanner
slides at the fixed step 5 for queries shorter than 100 characters and 10
otherwise.  An offset is scanned exactly when it is a multiple of the
respective step below len(normalized page) - len(query) + 1. -/
theorem c6_amended (p : Page) (q : Chars) (i : ℕ) :
    (i ∈ fuzzyStops p q ↔ min 10 (max 5 (q.length / 20)) ∣ i ∧
      (i : ℤ) < ((lowerStr (normalize_text_aggressive p.text)).length : ℤ)
        - (q.length : ℤ) + 1) ∧
    (i ∈ Sel.fuzzyStops p q ↔ (if q.length < 100 then 5 else 10) ∣ i ∧
      (i : ℤ) < ((lowerStr (Sel.normalize_text_aggressive p.text)).length : ℤ)
        - (q.length : ℤ) + 1) := by
  constructor
  · have h := scanStops_mem
      (((lowerStr (normalize_text_aggressive p.text)).length : ℤ) - (q.length : ℤ) + 1)
      (step_size q.length) (by unfold step_size; omega) i
    simpa [fuzzyStops, step_size] using h
  · have h := scanStops_mem
      (((lowerStr (Sel.normalize_text_aggressive p.text)).length : ℤ) - (q.length : ℤ) + 1)
      (Sel.step_size q.length)
      (by by_cases hq : q.length < 100 <;> simp [Sel.step_size, hq]) i
    by_cases hq : q.length < 100 <;>
      simpa [Sel.fuzzyStops, Sel.step_size, hq] using h

/-! ## Fuzzy threshold lemmas -/

theorem seqRatio_eval (a b : Chars) (n m : ℕ) (hn : a.length + b.length = n)
    (hm : matchTotal n a b = m) (hz : n ≠ 0) :
    seqRatio a b = (2 * m : ℚ) / (n : ℚ) := by
  rw [seqRatio, hn, hm, if_neg hz]
  push_cast
  ring

/-- C7 amended: for queries shorter than 50 characters,
find_text_in_pdf.py's fuzzy search accepts only at a ratio of at least
max(threshold, 0.90), while get_pdf_selection_rects.py's fuzzy search
applies the caller's threshold unchanged. -/
theorem c7_amended (p : Page) (q : Chars) (th : ℚ) (hlen : q.length < 50) :
    ((fuzzy_search_in_page p q th).1 ≠ [] →
      max th (9/10) ≤ (fuzzy_search_in_page p q th).2) ∧
    ((Sel.fuzzy_search_in_page p q th).1 ≠ [] →
      th ≤ (Sel.fuzzy_search_in_page p q th).2) := by
  constructor
  · simp only [fuzzy_search_in_page, hlen, if_true]
    split
    case isTrue hacc =>
      split
      case isTrue hwr => intro h; exact absurd rfl h
      case isFalse hwr => intro _; exact hacc
    case isFalse hacc => intro h; exact absurd rfl h
  · simp only [Sel.fuzzy_search_in_page]
    split
    case isTrue hacc => intro _; exact hacc
    case isFalse hacc => intro h; exact absurd rfl h

set_option maxRecDepth 100000 in
/-- C7 counterexample: a 20-character query (shorter than 50) whose best
window similarity is exactly 0.85; get_pdf_selection_rects.py's fuzzy
search accepts it and returns rectangles although the ratio is below 0.90,
so the effective acceptance threshold is not max(threshold, 0.90). -/
theorem c7_counterexample :
    c7Query.length < 50 ∧
    (Sel.fuzzy_search_in_page c7Page c7Query (17/20)).1 ≠ [] ∧
    (Sel.fuzzy_search_in_page c7Page c7Query (17/20)).2 < 9/10 := by
  have e1 : lowerStr (Sel.normalize_text_aggressive c7Query) = c7Query := by decide
  have e2 : lowerStr (Sel.normalize_text_aggressive c7Page.text) = c7Page.text := by decide
  have hstops : Sel.fuzzyStops c7Page c7Query = [0] := by decide
  have hw : (c7Page.text.drop 0).take c7Query.length = c7Page.text := by decide
  have hr : seqRatio c7Query c7Page.text = 17/20 := by
    rw [seqRatio_eval c7Query c7Page.text 40 17 (by decide) (by decide) (by decide)]
    norm_num
  have hbest : Sel.fuzzyBestGo c7Query c7Query.length c7Page.text [0] (0, -1)
      = (17/20, 0) := by
    rw [Sel.fuzzyBestGo, hw, hr]
    norm_num [Sel.fuzzyBestGo]
  have hfz : Sel.fuzzy_search_in_page c7Page c7Query (17/20)
      = (get_words_in_range c7Page 0 (0 + (c7Query.length : ℤ)), 17/20) := by
    simp only [Sel.fuzzy_search_in_page, e1, e2, hstops, hbest]
    norm_num
  rw [hfz]
  refine ⟨by decide, by decide, by norm_num⟩

theorem c7_witness :
    c7Query.length < 50 ∧
    (((fuzzy_search_in_page c7Page c7Query (17/20)).1 ≠ [] →
        max (17/20) (9/10) ≤ (fuzzy_search_in_page c7Page c7Query (17/20)).2) ∧
      ((Sel.fuzzy_search_in_page c7Page c7Query (17/20)).1 ≠ [] →
        (17/20 : ℚ) ≤ (Sel.fuzzy_search_in_page c7Page c7Query (17/20)).2)) :=
  ⟨by decide, c7_amended c7Page c7Query (17/20) (by decide)⟩

/-! ## Rectangle expansion lemmas -/

theorem totalWidth_nil : totalWidth [] = 0 := rfl

theorem totalWidth_cons (r : Rect) (rs : List Rect) :
    totalWidth (r :: rs) = r.width + totalWidth rs := by
  simp [totalWidth]

theorem totalWidth_append (a b : List Rect) :
    totalWidth (a ++ b) = totalWidth a + totalWidth b := by
  simp [totalWidth]

theorem truncQ_nonneg (x : ℚ) (hx : 0 ≤ x) : 0 ≤ truncQ x := by
  rw [truncQ, if_neg (not_lt.mpr hx)]
  exact Int.floor_nonneg.mpr hx

theorem truncQ_ge_one (x : ℚ) (hx : 1 < x) : 1 ≤ truncQ x := by
  rw [truncQ, if_neg (not_lt.mpr (by linarith))]
  exact Int.le_floor.mpr (by exact_mod_cast hx.le)

/-- The per-rectangle expansion: under positive width, in-bounds x, and
either the single-line condition or a fitting first extra line, it
succeeds, keeps at least the matched width, and adds strict width or a
second rectangle. -/
theorem expandOne_spec (r : Rect) (matched full : ℕ) (page : Rect)
    (hm : 0 < matched) (hf : matched < full) (hw : 0 < r.width)
    (hx : r.x1 ≤ page.x1) (hp : 0 ≤ page.x1)
    (hfit : min (r.x1 + r.width / (matched : ℚ) * ((full : ℚ) - (matched : ℚ))) page.x1
        < page.x1 * (19/20) ∨
      r.y1 + r.height * (6/5) ≤ page.y1) :
    ∃ o, expandOne r matched full page = .ok o ∧ 1 ≤ o.length ∧
      r.width ≤ totalWidth o ∧ (r.width < totalWidth o ∨ 2 ≤ o.length) := by
  have hmq : (0 : ℚ) < (matched : ℚ) := by exact_mod_cast hm
  have hfq : (matched : ℚ) < (full : ℚ) := by exact_mod_cast hf
  have hcw : 0 < r.width / (matched : ℚ) := div_pos hw hmq
  have hadd : 0 < r.width / (matched : ℚ) * ((full : ℚ) - (matched : ℚ)) :=
    mul_pos hcw (by linarith)
  have hx0x1 : r.x0 + r.width = r.x1 := by
    simp [Rect.width]
  simp only [expandOne]
  by_cases hc : page.x1 * (19/20) ≤
      min (r.x1 + r.width / (matched : ℚ) * ((full : ℚ) - (matched : ℚ))) page.x1
  · -- multi-line branch
    rw [if_pos hc, if_neg (ne_of_gt hcw)]
    have hfity : r.y1 + r.height * (6/5) ≤ page.y1 := by
      rcases hfit with h | h
      · exact absurd hc (not_le.mpr h)
      · exact h
    have hcpl : r.width / (r.width / (matched : ℚ)) = (matched : ℚ) := by
      field_simp
    rw [hcpl]
    have hdiv : (1 : ℚ) < (full : ℚ) / (matched : ℚ) := by
      rw [lt_div_iff₀ hmq]
      linarith
    have hest : 1 ≤ truncQ ((full : ℚ) / (matched : ℚ)) :=
      truncQ_ge_one _ hdiv
    obtain ⟨k2, hk2⟩ : ∃ k2,
        (truncQ ((full : ℚ) / (matched : ℚ)) + 1).toNat = k2 + 2 :=
      ⟨(truncQ ((full : ℚ) / (matched : ℚ)) + 1).toNat - 2, by omega⟩
    rw [hk2]
    have hmw : (matched : ℚ) * (r.width / (matched : ℚ)) = r.width := by
      field_simp
    have h0 : expandLine r (matched : ℚ) (r.width / (matched : ℚ)) page 0 = some r := by
      simp [expandLine]
    have hline1 : r.y1 + r.height * (6/5) * ((1 : ℕ) : ℚ) ≤ page.y1 := by
      push_cast
      linarith
    have h1 : expandLine r (matched : ℚ) (r.width / (matched : ℚ)) page 1
        = some ⟨r.x0, r.y0 + r.height * (6/5) * ((1 : ℕ) : ℚ), r.x1,
            r.y1 + r.height * (6/5) * ((1 : ℕ) : ℚ)⟩ := by
      rw [expandLine, if_neg (by omega), if_pos hline1, hmw, hx0x1, min_eq_left hx]
    have hrange : List.range (k2 + 2) = 0 :: 1 :: List.range' 2 k2 1 := by
      rw [List.range_eq_range', List.range'_succ, List.range'_succ]
    rw [hrange, List.filterMap_cons_some h0, List.filterMap_cons_some h1]
    have hnn : ∀ x ∈ List.filterMap
        (expandLine r (matched : ℚ) (r.width / (matched : ℚ)) page)
        (List.range' 2 k2 1), 0 ≤ x.width := by
      intro x hxm
      obtain ⟨ln, _, hfl⟩ := List.mem_filterMap.mp hxm
      rw [expandLine] at hfl
      by_cases hln : ln = 0
      · rw [if_pos hln, Option.some_inj] at hfl
        exact hfl ▸ hw.le
      · rw [if_neg hln] at hfl
        by_cases hy : r.y1 + r.height * (6/5) * (ln : ℚ) ≤ page.y1
        · rw [if_pos hy, Option.some_inj] at hfl
          rw [← hfl]
          show (0 : ℚ) ≤ Rect.width _
          rw [Rect.width, hmw, hx0x1]
          simp [min_eq_left hx]
          linarith [hw, hx0x1]
        · rw [if_neg hy] at hfl
          exact absurd hfl (by simp)
    refine ⟨_, rfl, by simp, ?_, Or.inr (by simp)⟩
    rw [totalWidth_cons, totalWidth_cons]
    have hwn : 0 ≤ totalWidth (List.filterMap
        (expandLine r (matched : ℚ) (r.width / (matched : ℚ)) page)
        (List.range' 2 k2 1)) := by
      rw [totalWidth]
      apply List.sum_nonneg
      intro w hwm
      obtain ⟨o2, ho2, rfl⟩ := List.mem_map.mp hwm
      exact hnn o2 ho2
    have hw2 : (0 : ℚ) ≤ Rect.width ⟨r.x0, r.y0 + r.height * (6/5) * ((1 : ℕ) : ℚ), r.x1,
        r.y1 + r.height * (6/5) * ((1 : ℕ) : ℚ)⟩ := by
      rw [Rect.width]
      linarith [hw, hx0x1]
    linarith [hw2, hwn]
  · -- single-line branch
    rw [if_neg hc]
    push_neg at hc
    have hx1px : r.x1 < page.x1 := by
      by_contra hcon
      push_neg at hcon
      have heq : min (r.x1 + r.width / (matched : ℚ) * ((full : ℚ) - (matched : ℚ))) page.x1
          = page.x1 := min_eq_right (by linarith)
      rw [heq] at hc
      linarith
    have hlt : r.x1 < min (r.x1 + r.width / (matched : ℚ) * ((full : ℚ) - (matched : ℚ)))
        page.x1 := lt_min_iff.mpr ⟨by linarith, hx1px⟩
    refine ⟨_, rfl, by simp, ?_, Or.inl ?_⟩
    · rw [totalWidth_cons, totalWidth_nil]
      show r.width ≤ min (r.x1 + r.width / (matched : ℚ) * ((full : ℚ) - (matched : ℚ)))
        page.x1 - r.x0 + 0
      linarith [hlt, hx0x1]
    · rw [totalWidth_cons, totalWidth_nil]
      show r.width < min (r.x1 + r.width / (matched : ℚ) * ((full : ℚ) - (matched : ℚ)))
        page.x1 - r.x0 + 0
      linarith [hlt, hx0x1]

/-- The per-rectangle expansion never drops the matched rectangle: some
output rectangle contains it, in both branches. -/
theorem expandOne_covers (r : Rect) (matched full : ℕ) (page : Rect)
    (hm : 0 < matched) (hmf : matched ≤ full) (hw : 0 < r.width) (hx : r.x1 ≤ page.x1) :
    ∃ o, expandOne r matched full page = .ok o ∧ ∃ e ∈ o, coversRect e r := by
  have hmq : (0 : ℚ) < (matched : ℚ) := by exact_mod_cast hm
  have hmfq : (matched : ℚ) ≤ (full : ℚ) := by exact_mod_cast hmf
  have hcw : 0 < r.width / (matched : ℚ) := div_pos hw hmq
  have hadd : 0 ≤ r.width / (matched : ℚ) * ((full : ℚ) - (matched : ℚ)) :=
    mul_nonneg hcw.le (by linarith)
  simp only [expandOne]
  by_cases hc : page.x1 * (19/20) ≤
      min (r.x1 + r.width / (matched : ℚ) * ((full : ℚ) - (matched : ℚ))) page.x1
  · rw [if_pos hc, if_neg (ne_of_gt hcw)]
    refine ⟨_, rfl, r, ?_, le_refl _, le_refl _, le_refl _, le_refl _⟩
    apply List.mem_filterMap.mpr
    refine ⟨0, ?_, by simp [expandLine]⟩
    apply List.mem_range.mpr
    have hcpl : r.width / (r.width / (matched : ℚ)) = (matched : ℚ) := by
      field_simp
    have h0 : 0 ≤ truncQ ((full : ℚ) / (r.width / (r.width / (matched : ℚ)))) := by
      rw [hcpl]
      exact truncQ_nonneg _ (div_nonneg (by positivity) hmq.le)
    omega
  · rw [if_neg hc]
    refine ⟨_, rfl, _, List.mem_singleton_self _, le_refl _, le_refl _, ?_, le_refl _⟩
    exact le_min (by linarith) hx

/-- Accumulated expansion preserves both coverage measures when every
rectangle satisfies the per-rectangle premises. -/
theorem expandGo_ge (matched full : ℕ) (page : Rect)
    (hm : 0 < matched) (hf : matched < full) (hp : 0 ≤ page.x1) :
    ∀ ti : List Rect,
      (∀ r ∈ ti, 0 < r.width ∧ r.x1 ≤ page.x1 ∧
        (min (r.x1 + r.width / (matched : ℚ) * ((full : ℚ) - (matched : ℚ))) page.x1
            < page.x1 * (19/20) ∨
          r.y1 + r.height * (6/5) ≤ page.y1)) →
      ∃ out, expandGo matched full page ti = .ok out ∧
        totalWidth ti ≤ totalWidth out ∧ ti.length ≤ out.length := by
  intro ti
  induction ti with
  | nil => exact fun _ => ⟨[], rfl, le_refl _, le_refl _⟩
  | cons r rest ih =>
    intro hb
    obtain ⟨hw, hx, hfit⟩ := hb r (List.mem_cons_self r rest)
    obtain ⟨o, ho, holen, howd, _⟩ :=
      expandOne_spec r matched full page hm hf hw hx hp hfit
    obtain ⟨out2, hout2, hwd2, hlen2⟩ := ih (fun x hxm => hb x (List.mem_cons_of_mem _ hxm))
    refine ⟨o ++ out2, ?_, ?_, ?_⟩
    · rw [expandGo, ho, hout2]
      rfl
    · rw [totalWidth_cons, totalWidth_append]
      linarith
    · simp only [List.length_cons, List.length_append]
      omega

/-- C9 amended: expansion of a non-empty match with 0 < matched < full
strictly increases coverage (greater total width or strictly more
rectangles), provided each matched rectangle has positive width, lies
within the page x-extent, and either its single-line extension stays clear
of the right margin or its first synthesized extra line fits above the
page bottom.  Without the last proviso the discard of all extra lines can
leave coverage unchanged, as the counterexample shows. -/
theorem c9_amended (ti : List Rect) (matched full : ℕ) (p : Page)
    (hm : 0 < matched) (hf : matched < full) (hne : ti ≠ [])
    (hp : 0 ≤ p.bounds.x1)
    (hb : ∀ r ∈ ti, 0 < r.width ∧ r.x1 ≤ p.bounds.x1 ∧
      (min (r.x1 + r.width / (matched : ℚ) * ((full : ℚ) - (matched : ℚ))) p.bounds.x1
          < p.bounds.x1 * (19/20) ∨
        r.y1 + r.height * (6/5) ≤ p.bounds.y1)) :
    ∃ out, expand_rectangles_for_long_text ti matched full p = .ok out ∧
      (totalWidth ti < totalWidth out ∨ ti.length < out.length) := by
  obtain ⟨r, rest, rfl⟩ := List.exists_cons_of_ne_nil hne
  rw [expand_rectangles_for_long_text, if_neg (by simp), if_neg (by omega)]
  obtain ⟨hw, hx, hfit⟩ := hb r (List.mem_cons_self r rest)
  obtain ⟨o, ho, holen, howd, hstrict⟩ :=
    expandOne_spec r matched full p.bounds hm hf hw hx hp hfit
  obtain ⟨out2, hout2, hwd2, hlen2⟩ :=
    expandGo_ge matched full p.bounds hm hf hp rest
      (fun x hxm => hb x (List.mem_cons_of_mem _ hxm))
  refine ⟨o ++ out2, ?_, ?_⟩
  · rw [expandGo, ho, hout2]
    rfl
  · rcases hstrict with hsw | hsl
    · left
      rw [totalWidth_cons, totalWidth_append]
      linarith
    · right
      simp only [List.length_cons, List.length_append]
      omega

/-- C10 amended: with 0 < matched ≤ full, every in-bounds input rectangle
of positive width is contained in at least one output rectangle of the
(successful) expansion, in both branches; the zero-width case instead
raises, as the counterexample shows. -/
theorem c10_amended (ti : List Rect) (matched full : ℕ) (p : Page)
    (hm : 0 < matched) (hmf : matched ≤ full)
    (hb : ∀ r ∈ ti, inBounds r p.bounds ∧ 0 < r.width) :
    ∃ out, expand_rectangles_for_long_text ti matched full p = .ok out ∧
      ∀ r ∈ ti, ∃ e ∈ out, coversRect e r := by
  rw [expand_rectangles_for_long_text]
  by_cases hni : ti = []
  · subst hni
    exact ⟨[], by simp, by simp⟩
  rw [if_neg hni, if_neg (by omega)]
  clear hni
  induction ti with
  | nil => exact ⟨[], rfl, by simp⟩
  | cons r rest ih =>
    obtain ⟨hbnd, hw⟩ := hb r (List.mem_cons_self r rest)
    obtain ⟨o, ho, e, he, hcov⟩ :=
      expandOne_covers r matched full p.bounds hm hmf hw hbnd.2.2.1
    obtain ⟨out2, hout2, hcov2⟩ := ih (fun x hxm => hb x (List.mem_cons_of_mem _ hxm))
    refine ⟨o ++ out2, ?_, ?_⟩
    · rw [expandGo, ho, hout2]
      rfl
    · intro x hxm
      rcases List.mem_cons.mp hxm with rfl | hxr
      · exact ⟨e, List.mem_append_left _ he, hcov⟩
      · obtain ⟨e2, he2, hcov2x⟩ := hcov2 x hxr
        exact ⟨e2, List.mem_append_right _ he2, hcov2x⟩

/-- C9 counterexample: a 96-wide match rectangle at the bottom right of a
100 by 100 page, matched length 100, full length 200.  The multi-line
branch fires, every synthesized extra line falls below the page bottom and
is discarded, and the expansion returns exactly the input rectangle: no
greater total width and no more rectangles. -/
theorem c9_counterexample :
    inBounds c9Rect c9Page.bounds ∧ (100 : ℕ) < 200 ∧
    expand_rectangles_for_long_text [c9Rect] 100 200 c9Page = .ok [c9Rect] ∧
    ¬(totalWidth [c9Rect] < totalWidth [c9Rect] ∨
      ([c9Rect] : List Rect).length < ([c9Rect] : List Rect).length) := by
  refine ⟨by norm_num [inBounds, c9Rect, c9Page], by norm_num, ?_, by simp⟩
  rw [expand_rectangles_for_long_text, if_neg (by simp), if_neg (by omega)]
  have hone : expandOne c9Rect 100 200 c9Page.bounds = .ok [c9Rect] := by
    rw [expandOne]
    rw [if_pos (by norm_num [c9Rect, c9Page, Rect.width])]
    rw [if_neg (by norm_num [c9Rect, Rect.width])]
    have hK : (truncQ (((200 : ℕ) : ℚ) /
        (c9Rect.width / (c9Rect.width / ((100 : ℕ) : ℚ)))) + 1).toNat = 3 := by
      have harg : ((200 : ℕ) : ℚ) / (c9Rect.width / (c9Rect.width / ((100 : ℕ) : ℚ))) = 2 := by
        norm_num [c9Rect, Rect.width]
      rw [harg, truncQ, if_neg (by norm_num)]
      rfl
    rw [hK, show List.range 3 = [0, 1, 2] from rfl]
    norm_num [List.filterMap_cons, expandLine, c9Rect, c9Page, Rect.height, Rect.width]
  rw [expandGo, hone, expandGo]
  rfl

/-- C10 counterexample: a zero-width in-bounds rectangle at the right edge
of the page, with 0 < matched ≤ full, makes the multi-line branch divide
by a zero character width: the expansion raises instead of producing any
output rectangle containing the input. -/
theorem c10_counterexample :
    (0 : ℕ) < 100 ∧ (100 : ℕ) ≤ 200 ∧ inBounds c10Rect c9Page.bounds ∧
    expand_rectangles_for_long_text [c10Rect] 100 200 c9Page
      = .error "float division by zero" := by
  refine ⟨by norm_num, by norm_num, by norm_num [inBounds, c10Rect, c9Page], ?_⟩
  rw [expand_rectangles_for_long_text, if_neg (by simp), if_neg (by omega)]
  have hone : expandOne c10Rect 100 200 c9Page.bounds = .error "float division by zero" := by
    rw [expandOne]
    rw [if_pos (by norm_num [c10Rect, c9Page, Rect.width])]
    rw [if_pos (by norm_num [c10Rect, Rect.width])]
  rw [expandGo, hone]
  rfl

theorem c9_witness :
    (0 : ℕ) < 100 ∧ (100 : ℕ) < 150 ∧
    ∃ out, expand_rectangles_for_long_text [okRect] 100 150 c9Page = .ok out ∧
      (totalWidth [okRect] < totalWidth out ∨ ([okRect] : List Rect).length < out.length) :=
  ⟨by norm_num, by norm_num,
    c9_amended [okRect] 100 150 c9Page (by norm_num) (by norm_num) (by simp)
      (by norm_num [c9Page])
      (by
        intro r hr
        rw [List.mem_singleton] at hr
        subst hr
        refine ⟨by norm_num [okRect, Rect.width], by norm_num [okRect, c9Page], Or.inl ?_⟩
        norm_num [okRect, c9Page, Rect.width, min_def])⟩

theorem c10_witness :
    (0 : ℕ) < 100 ∧ (100 : ℕ) ≤ 200 ∧
    ∃ out, expand_rectangles_for_long_text [(⟨0, 0, 50, 10⟩ : Rect)] 100 200 c9Page
        = .ok out ∧
      ∀ r ∈ [(⟨0, 0, 50, 10⟩ : Rect)], ∃ e ∈ out, coversRect e r :=
  ⟨by norm_num, by norm_num,
    c10_amended [(⟨0, 0, 50, 10⟩ : Rect)] 100 200 c9Page (by norm_num) (by norm_num)
      (by
        intro r hr
        rw [List.mem_singleton] at hr
        subst hr
        exact ⟨by norm_num [inBounds, c9Page], by norm_num [Rect.width]⟩)⟩

/-! ## Cascade lemmas -/

theorem searchFor_ne_nil (p : Page) (q : Chars) (hq : q ≠ [])
    (hocc : occPositions q p.text ≠ []) : p.searchFor q ≠ [] := by
  rw [Page.searchFor, if_neg hq]
  intro hmap
  exact hocc (List.map_eq_nil_iff.mp hmap)

/-- C3: a non-empty query occurring verbatim in the page text is found by
strategy 1 (exact search), giving a non-empty rectangle list with
confidence 1.  (The empty query is an InputError per spec section 7 and
excluded; PyMuPDF's search finds nothing for it.) -/
theorem c3_exact_substring (p : Page) (q : Chars) (hq : q ≠ [])
    (hocc : occPositions q p.text ≠ []) :
    (find_text_result p q).rects ≠ [] ∧
    ((find_text_result p q).strategy = 1 ∨ (find_text_result p q).strategy = 2) ∧
    (find_text_result p q).conf = 1 := by
  have h1 : p.searchFor q ≠ [] := searchFor_ne_nil p q hq hocc
  rw [find_text_result]
  simp only [find_text_in_pdf_core]
  rw [if_pos h1]
  refine ⟨?_, Or.inl rfl, rfl⟩
  simpa [format_results] using h1

theorem c3_witness :
    worldQuery ≠ [] ∧ occPositions worldQuery hwPage.text ≠ [] ∧
    ((find_text_result hwPage worldQuery).rects ≠ [] ∧
      ((find_text_result hwPage worldQuery).strategy = 1 ∨
        (find_text_result hwPage worldQuery).strategy = 2) ∧
      (find_text_result hwPage worldQuery).conf = 1) :=
  ⟨by decide, by decide, c3_exact_substring hwPage worldQuery (by decide) (by decide)⟩

theorem findStrategy8_fail (p : Page) (q : Chars)
    (h : p.searchFor (q.take 100) = [] ∧ p.searchFor (normalize_whitespace (q.take 100)) = []) :
    findStrategy8 p q = ([1, 2, 3, 4, 5, 6, 7, 8], .ok ⟨[], 0, 0⟩) := by
  rw [findStrategy8]
  simp [h.1, h.2]

theorem findStrategy7_fail (p : Page) (q : Chars)
    (h7 : find_text_by_start_and_end_anchors p q (q.take 50) q.length
      (some (takeLastN q 50)) = none)
    (h8 : p.searchFor (q.take 100) = [] ∧ p.searchFor (normalize_whitespace (q.take 100)) = []) :
    findStrategy7 p q = ([1, 2, 3, 4, 5, 6, 7, 8], .ok ⟨[], 0, 0⟩) := by
  rw [findStrategy7]
  simp only [h7, Option.getD_none]
  rw [if_neg (by simp)]
  exact findStrategy8_fail p q h8

theorem findStrategy6_fail (p : Page) (q : Chars)
    (h6 : ∀ fs, extract_first_sentence q = some fs →
      fs.length ≤ 20 ∨ (p.searchFor fs = [] ∧ p.searchFor (normalize_whitespace fs) = []))
    (h7 : find_text_by_start_and_end_anchors p q (q.take 50) q.length
      (some (takeLastN q 50)) = none)
    (h8 : p.searchFor (q.take 100) = [] ∧ p.searchFor (normalize_whitespace (q.take 100)) = []) :
    findStrategy6 p q = ([1, 2, 3, 4, 5, 6, 7, 8], .ok ⟨[], 0, 0⟩) := by
  have h78 := findStrategy7_fail p q h7 h8
  rw [findStrategy6]
  split
  · exact h78
  · rename_i fs hfs
    rcases h6 fs hfs with h | h
    · rw [if_neg (by omega)]
      exact h78
    · by_cases hlen : fs.length > 20
      · rw [if_pos hlen]
        simp [h.1, h.2, h78]
      · rw [if_neg hlen]
        exact h78

/-- C2: when every strategy fails to find the text (in either script), the
call returns successfully (no exception: the result is Except.ok, and the
wire-level lists are empty) with confidence 0. -/
theorem c2_all_fail (p : Page) (q : Chars)
    (h1 : p.searchFor q = [])
    (h2 : p.searchFor (normalize_whitespace q) = [])
    (h3 : pyFind (lowerStr (normalize_text_aggressive q))
        (lowerStr (normalize_text_aggressive p.text)) = -1)
    (h4 : (fuzzy_search_in_page p q (17/20)).1 = [])
    (h5 : case_insensitive_search p q = [])
    (h6 : q.length ≤ 100 ∨
      ∀ fs, extract_first_sentence q = some fs →
        fs.length ≤ 20 ∨ (p.searchFor fs = [] ∧ p.searchFor (normalize_whitespace fs) = []))
    (h7 : q.length ≤ 100 ∨
      find_text_by_start_and_end_anchors p q (q.take 50) q.length
        (some (takeLastN q 50)) = none)
    (h8 : q.length ≤ 100 ∨
      (p.searchFor (q.take 100) = [] ∧
        p.searchFor (normalize_whitespace (q.take 100)) = []))
    (g2 : p.searchFor (Sel.normalize_whitespace q) = [])
    (g3 : p.searchFor (Sel.normalize_text_aggressive q) = [])
    (g4 : (Sel.fuzzy_search_in_page p q (17/20)).1 = []) :
    (find_text_in_pdf_core p q).2 = .ok ⟨[], 0, 0⟩ ∧
    find_text_in_pdf p q = [] ∧
    Sel.get_selection_rectangles p q = [] := by
  have hcore : (find_text_in_pdf_core p q).2 = .ok ⟨[], 0, 0⟩ := by
    simp only [find_text_in_pdf_core]
    rw [if_neg (by simp [h1]), if_neg (by simp [h2]), if_neg (by simp [h4]),
      if_neg (by simp [h5])]
    by_cases hq : q.length > 100
    · rw [if_pos hq]
      rw [findStrategy6_fail p q (h6.resolve_left (by omega))
        (h7.resolve_left (by omega)) (h8.resolve_left (by omega))]
    · rw [if_neg hq]
  refine ⟨hcore, ?_, ?_⟩
  · rw [find_text_in_pdf, hcore]
  · rw [Sel.get_selection_rectangles]
    rw [if_neg (by simp [h1]), if_neg (by simp [g2]), if_neg (by simp [g3]),
      if_neg (by simp [g4])]

theorem c2_witness :
    (find_text_in_pdf_core hwPage zebraQuery).2 = .ok ⟨[], 0, 0⟩ ∧
    find_text_in_pdf hwPage zebraQuery = [] ∧
    Sel.get_selection_rectangles hwPage zebraQuery = [] := by
  have e1 : lowerStr (normalize_text_aggressive zebraQuery) = zebraQuery := by decide
  have e2 : lowerStr (normalize_text_aggressive hwPage.text) = hwPage.text := by decide
  have f1 : lowerStr (Sel.normalize_text_aggressive zebraQuery) = zebraQuery := by decide
  have f2 : lowerStr (Sel.normalize_text_aggressive hwPage.text) = hwPage.text := by decide
  have hst : fuzzyStops hwPage zebraQuery = [0, 5] := by decide
  have gst : Sel.fuzzyStops hwPage zebraQuery = [0, 5] := by decide
  have hw0 : (hwPage.text.drop 0).take zebraQuery.length
      = ['h', 'e', 'l', 'l', 'o'] := by decide
  have hw5 : (hwPage.text.drop 5).take zebraQuery.length
      = [' ', 'w', 'o', 'r', 'l'] := by decide
  have hr0 : seqRatio zebraQuery ['h', 'e', 'l', 'l', 'o'] = 1/5 := by
    rw [seqRatio_eval _ _ 10 1 (by decide) (by decide) (by decide)]
    norm_num
  have hr5 : seqRatio zebraQuery [' ', 'w', 'o', 'r', 'l'] = 1/5 := by
    rw [seqRatio_eval _ _ 10 1 (by decide) (by decide) (by decide)]
    norm_num
  have hbest : fuzzyBestGo zebraQuery zebraQuery.length hwPage.text [0, 5] (0, -1)
      = (1/5, 0) := by
    simp only [fuzzyBestGo, hw0, hw5, hr0, hr5]
    norm_num
  have gbest : Sel.fuzzyBestGo zebraQuery zebraQuery.length hwPage.text [0, 5] (0, -1)
      = (1/5, 0) := by
    simp only [Sel.fuzzyBestGo, hw0, hw5, hr0, hr5]
    norm_num
  have h4 : (fuzzy_search_in_page hwPage zebraQuery (17/20)).1 = [] := by
    simp only [fuzzy_search_in_page, e1, e2, hst, hbest]
    rw [if_pos (show List.length zebraQuery < 50 from by decide)]
    norm_num
  have g4 : (Sel.fuzzy_search_in_page hwPage zebraQuery (17/20)).1 = [] := by
    simp only [Sel.fuzzy_search_in_page, f1, f2, gst, gbest]
    norm_num
  exact c2_all_fail hwPage zebraQuery (by decide) (by decide) (by decide) h4 (by decide)
    (Or.inl (by decide)) (Or.inl (by decide)) (Or.inl (by decide))
    (by decide) (by decide) g4

/-! ## Empty-query and bad-page-index behaviour (claim C8) -/

theorem searchFor_nil (p : Page) : p.searchFor [] = [] := by
  rw [Page.searchFor, if_pos rfl]

theorem gwir_go_zero_end (ws : List Word) (pos : ℕ) (s : ℤ) :
    get_words_in_range_go ws pos s 0 = [] := by
  induction ws generalizing pos with
  | nil => rfl
  | cons w tl ih =>
    simp only [get_words_in_range_go]
    rw [if_neg (by omega), List.nil_append]
    exact ih _

theorem gwir_zero (p : Page) : get_words_in_range p 0 0 = [] := by
  rw [get_words_in_range]
  exact gwir_go_zero_end p.words 0 0

theorem seqRatio_nil_nil : seqRatio [] [] = 1 := rfl

theorem fuzzyBestGo_nil_const (pN : Chars) (stops : List ℕ) (b : ℤ) :
    fuzzyBestGo [] 0 pN stops (1, b) = (1, b) := by
  induction stops with
  | nil => rfl
  | cons i rest ih =>
    have hw : seqRatio [] ((pN.drop i).take 0) = 1 := by
      rw [List.take_zero]
      exact seqRatio_nil_nil
    simp only [fuzzyBestGo, hw]
    rw [if_neg (by norm_num)]
    exact ih

theorem scanStops_cons_zero (total : ℤ) (step : ℕ) (ht : 0 < total) (hs : step ≠ 0) :
    ∃ rest, scanStops total step = 0 :: rest := by
  rw [scanStops, if_neg (by omega)]
  have h1 : 0 < (total.toNat + step - 1) / step :=
    Nat.div_pos (by omega) (by omega)
  obtain ⟨k, hk⟩ : ∃ k, (total.toNat + step - 1) / step = k + 1 :=
    ⟨_, (Nat.succ_pred_eq_of_pos h1).symm⟩
  exact ⟨_, by rw [hk, List.range'_succ]⟩

theorem fuzzy_empty (p : Page) : (fuzzy_search_in_page p [] (17/20)).1 = [] := by
  obtain ⟨rest, hst⟩ := scanStops_cons_zero
      (((lowerStr (normalize_text_aggressive p.text)).length : ℤ)
        - (([] : Chars).length : ℤ) + 1)
      (step_size ([] : Chars).length)
      (by simp only [List.length_nil, Nat.cast_zero, sub_zero]; positivity)
      (by decide)
  have hstops : fuzzyStops p [] = 0 :: rest := by
    rw [fuzzyStops]
    exact hst
  have hw0 : seqRatio (lowerStr (normalize_text_aggressive []))
      (((lowerStr (normalize_text_aggressive p.text)).drop 0).take
        (List.length ([] : Chars))) = 1 := by
    simp only [List.length_nil, List.take_zero]
    exact seqRatio_nil_nil
  have hbest : fuzzyBestGo (lowerStr (normalize_text_aggressive []))
      (List.length ([] : Chars)) (lowerStr (normalize_text_aggressive p.text))
      (fuzzyStops p []) (0, -1) = (1, 0) := by
    rw [hstops]
    simp only [fuzzyBestGo, hw0]
    rw [if_pos (by norm_num)]
    have := fuzzyBestGo_nil_const (lowerStr (normalize_text_aggressive p.text)) rest 0
    simpa using this
  simp only [fuzzy_search_in_page, hbest]
  norm_num [gwir_zero p]

theorem pyFind_nil (hay : Chars) : pyFind [] hay = 0 := by
  have hocc : occPositions [] hay = List.range (hay.length + 1) := by
    rw [occPositions]
    exact List.filter_eq_self.mpr (fun a _ => rfl)
  rw [pyFind, hocc, List.range_succ_eq_map]
  rfl

theorem cis_nil (p : Page) : case_insensitive_search p [] = [] := by
  have h0 : pyFind (lowerStr []) (lowerStr p.text) = 0 := pyFind_nil _
  have hslice : pySlice p.text 0 (0 + (List.length ([] : Chars) : ℤ)) = [] := by
    simp [pySlice]
  simp only [case_insensitive_search, h0]
  rw [if_neg (by decide), hslice, searchFor_nil]

theorem find_core_empty_query (p : Page) :
    find_text_in_pdf_core p [] = ([1, 2, 3, 4, 5], .ok ⟨[], 0, 0⟩) := by
  have hnw : normalize_whitespace ([] : Chars) = [] := rfl
  simp [find_text_in_pdf_core, hnw, searchFor_nil, fuzzy_empty, cis_nil]

/-- C8 (amended): a page index outside [-page_count, page_count) (after the
1-based shift) is rejected before any strategy runs, with an empty attempt
list; but an empty query is NOT rejected: strategies 1 through 5 all run on
it and the cascade returns the empty no-match result. -/
theorem c8_amended (doc : List Page) (pageNum : ℤ) (q : Chars)
    (hbad : pageNum - 1 < -(doc.length : ℤ) ∨ (doc.length : ℤ) ≤ pageNum - 1) :
    find_text_in_pdf_call doc pageNum q = ([], []) ∧
    ∀ p : Page, find_text_in_pdf_core p [] = ([1, 2, 3, 4, 5], .ok ⟨[], 0, 0⟩) := by
  constructor
  · have hlp : loadPage doc (pageNum - 1) = none := by
      rw [loadPage, if_neg (by omega), if_neg (by omega)]
    rw [find_text_in_pdf_call, hlp]
  · exact find_core_empty_query

/-- C8: the empty query is not rejected before any strategy runs — on the
hello-world page the cascade attempts strategies 1 through 5 on it. -/
theorem c8_counterexample :
    (find_text_in_pdf_core hwPage []).1 = [1, 2, 3, 4, 5] ∧
    (find_text_in_pdf_core hwPage []).1 ≠ [] := by
  have h := find_core_empty_query hwPage
  constructor
  · rw [h]
  · rw [h]
    decide

theorem c8_witness :
    ((5 : ℤ) - 1 < -(([hwPage] : List Page).length : ℤ) ∨
      (([hwPage] : List Page).length : ℤ) ≤ (5 : ℤ) - 1) ∧
    (find_text_in_pdf_call [hwPage] 5 zebraQuery = ([], []) ∧
      ∀ p : Page, find_text_in_pdf_core p [] = ([1, 2, 3, 4, 5], .ok ⟨[], 0, 0⟩)) :=
  ⟨Or.inr (by decide), c8_amended [hwPage] 5 zebraQuery (Or.inr (by decide))⟩

/-! ## The smart-quote phrase never recovered (claim C1) -/

set_option maxRecDepth 100000 in
/-- C1: on the smart-quote page with the straight-quote query, the
aggressively normalized query occurs in the normalized page text at
position 8 — the match the spec's strategy 3 must recover — yet the code's
corresponding strategy never returns rectangles: the main cascade attempts
strategies 1 through 5 and both entry points return the empty list. -/
theorem c1_code_bug :
    occPositions (lowerStr (normalize_text_aggressive fwQuery))
        (lowerStr (normalize_text_aggressive fwPage.text)) = [8] ∧
    (find_text_in_pdf_core fwPage fwQuery).1 = [1, 2, 3, 4, 5] ∧
    find_text_in_pdf fwPage fwQuery = [] ∧
    Sel.get_selection_rectangles fwPage fwQuery = [] := by
  have e1 : lowerStr (normalize_text_aggressive fwQuery) = fwSN := by decide
  have e2 : lowerStr (normalize_text_aggressive fwPage.text) = fwPN := by decide
  have f1 : lowerStr (Sel.normalize_text_aggressive fwQuery) = fwSN := by decide
  have f2 : lowerStr (Sel.normalize_text_aggressive fwPage.text) = fwPN := by decide
  have hst : fuzzyStops fwPage fwQuery = [0, 5, 10, 15] := by decide
  have gst : Sel.fuzzyStops fwPage fwQuery = [0, 5, 10, 15] := by decide
  have hw0 : (fwPN.drop 0).take fwQuery.length
      = ['h', 'e', ' ', 's', 'a', 'i', 'd', ' ', '@', 'f', 'r'] := by decide
  have hw5 : (fwPN.drop 5).take fwQuery.length
      = ['i', 'd', ' ', '@', 'f', 'r', 'e', 'e', ' ', 'w', 'i'] := by decide
  have hw10 : (fwPN.drop 10).take fwQuery.length
      = ['r', 'e', 'e', ' ', 'w', 'i', 'l', 'l', '@', ' ', 'i'] := by decide
  have hw15 : (fwPN.drop 15).take fwQuery.length
      = ['i', 'l', 'l', '@', ' ', 'i', 's', ' ', 'r', 'e', 'a'] := by decide
  have hr0 : seqRatio fwSN ['h', 'e', ' ', 's', 'a', 'i', 'd', ' ', '@', 'f', 'r']
      = 3/11 := by
    rw [seqRatio_eval _ _ 22 3 (by decide) (by decide) (by decide)]
    norm_num
  have hr5 : seqRatio fwSN ['i', 'd', ' ', '@', 'f', 'r', 'e', 'e', ' ', 'w', 'i']
      = 8/11 := by
    rw [seqRatio_eval _ _ 22 8 (by decide) (by decide) (by decide)]
    norm_num
  have hr10 : seqRatio fwSN ['r', 'e', 'e', ' ', 'w', 'i', 'l', 'l', '@', ' ', 'i']
      = 9/11 := by
    rw [seqRatio_eval _ _ 22 9 (by decide) (by decide) (by decide)]
    norm_num
  have hr15 : seqRatio fwSN ['i', 'l', 'l', '@', ' ', 'i', 's', ' ', 'r', 'e', 'a']
      = 4/11 := by
    rw [seqRatio_eval _ _ 22 4 (by decide) (by decide) (by decide)]
    norm_num
  have hbest : fuzzyBestGo fwSN fwQuery.length fwPN [0, 5, 10, 15] (0, -1)
      = (9/11, 10) := by
    simp only [fuzzyBestGo, hw0, hw5, hw10, hw15, hr0, hr5, hr10, hr15]
    norm_num
  have gbest : Sel.fuzzyBestGo fwSN fwQuery.length fwPN [0, 5, 10, 15] (0, -1)
      = (9/11, 10) := by
    simp only [Sel.fuzzyBestGo, hw0, hw5, hw10, hw15, hr0, hr5, hr10, hr15]
    norm_num
  have hfz : (fuzzy_search_in_page fwPage fwQuery (17/20)).1 = [] := by
    simp only [fuzzy_search_in_page, e1, e2, hst, hbest]
    rw [if_pos (show List.length fwQuery < 50 from by decide)]
    norm_num
  have gfz : (Sel.fuzzy_search_in_page fwPage fwQuery (17/20)).1 = [] := by
    simp only [Sel.fuzzy_search_in_page, f1, f2, gst, gbest]
    norm_num
  have hocc1 : occPositions fwQuery fwPage.text = [] := by decide
  have ht1 : fwPage.searchFor fwQuery = [] := by
    rw [Page.searchFor, if_neg (by decide), hocc1]
    rfl
  have hnw : normalize_whitespace fwQuery = fwQuery := by decide
  have ht3 : case_insensitive_search fwPage fwQuery = [] := by decide
  have hlen : ¬(fwQuery.length > 100) := by decide
  have hcore : find_text_in_pdf_core fwPage fwQuery
      = ([1, 2, 3, 4, 5], .ok ⟨[], 0, 0⟩) := by
    simp [find_text_in_pdf_core, hnw, ht1, hfz, ht3, hlen]
  have hq2 : Sel.normalize_whitespace fwQuery = fwQuery := by decide
  have hq3occ : occPositions (Sel.normalize_text_aggressive fwQuery) fwPage.text
      = [] := by decide
  have hq3 : fwPage.searchFor (Sel.normalize_text_aggressive fwQuery) = [] := by
    rw [Page.searchFor, if_neg (by decide), hq3occ]
    rfl
  refine ⟨by rw [e1, e2]; decide, ?_, ?_, ?_⟩
  · rw [hcore]
  · rw [find_text_in_pdf, hcore]
  · simp [Sel.get_selection_rectangles, hq2, ht1, hq3, gfz]

/-! ## Idempotence machinery: character facts and whitespace collapse -/

theorem headWs_eq_false_iff (l : Chars) :
    headWs l = false ↔ ∀ y ∈ l.head?, pyWs y = false := by
  cases l with
  | nil => simp [headWs]
  | cons c cs => simp [headWs]

theorem punct_ne_ws {c : Char} (h : isPunctCh c = true) : pyWs c = false := by
  simp only [isPunctCh, Bool.or_eq_true, decide_eq_true_eq] at h
  rcases h with ((((h | h) | h) | h) | h) | h <;> subst h <;> decide

theorem cwr_head {b : Char} (r : Chars) (hb : pyWs b = false) :
    ∃ t, collapseWsRuns (b :: r) = b :: t := by
  cases r with
  | nil =>
    refine ⟨[], ?_⟩
    simp [collapseWsRuns, hb]
  | cons c r' =>
    refine ⟨collapseWsRuns (c :: r'), ?_⟩
    simp only [collapseWsRuns]
    rw [if_neg (by simp [hb])]

theorem cwr_mem : ∀ s : Chars, ∀ c ∈ collapseWsRuns s,
    (c ∈ s ∧ pyWs c = false) ∨ c = ' ' := by
  intro s
  induction s with
  | nil => intro c hc; simp [collapseWsRuns] at hc
  | cons a s' ih =>
    cases s' with
    | nil =>
      intro c hc
      simp only [collapseWsRuns] at hc
      by_cases ha : pyWs a = true
      · rw [if_pos ha] at hc
        right
        simpa using hc
      · rw [if_neg ha] at hc
        left
        simp only [List.mem_singleton] at hc
        subst hc
        exact ⟨List.mem_cons_self _ _, by simpa using ha⟩
    | cons b r =>
      intro c hc
      simp only [collapseWsRuns] at hc
      by_cases ha : pyWs a = true
      · rw [if_pos ha] at hc
        by_cases hb : pyWs b = true
        · rw [if_pos hb] at hc
          rcases ih c hc with ⟨h1, h2⟩ | h
          · exact Or.inl ⟨List.mem_cons_of_mem _ h1, h2⟩
          · exact Or.inr h
        · rw [if_neg hb] at hc
          rcases List.mem_cons.mp hc with h | h
          · exact Or.inr h
          · rcases ih c h with ⟨h1, h2⟩ | h'
            · exact Or.inl ⟨List.mem_cons_of_mem _ h1, h2⟩
            · exact Or.inr h'
      · rw [if_neg ha] at hc
        rcases List.mem_cons.mp hc with h | h
        · subst h
          exact Or.inl ⟨List.mem_cons_self _ _, by simpa using ha⟩
        · rcases ih c h with ⟨h1, h2⟩ | h'
          · exact Or.inl ⟨List.mem_cons_of_mem _ h1, h2⟩
          · exact Or.inr h'

theorem cwr_spaceOnly (s : Chars) : spaceOnlyWs (collapseWsRuns s) := by
  intro c hc hws
  rcases cwr_mem s c hc with ⟨_, h2⟩ | h
  · rw [hws] at h2; cases h2
  · exact h

theorem cwr_noAdj : ∀ s : Chars, noAdjWs (collapseWsRuns s) := by
  intro s
  induction s with
  | nil => exact List.chain'_nil
  | cons a s' ih =>
    cases s' with
    | nil =>
      simp only [collapseWsRuns]
      by_cases ha : pyWs a = true
      · rw [if_pos ha]; exact List.chain'_singleton _
      · rw [if_neg ha]; exact List.chain'_singleton _
    | cons b r =>
      simp only [collapseWsRuns]
      by_cases ha : pyWs a = true
      · rw [if_pos ha]
        by_cases hb : pyWs b = true
        · rw [if_pos hb]; exact ih
        · rw [if_neg hb]
          obtain ⟨t, ht⟩ := cwr_head r (by simpa using hb)
          rw [ht]
          rw [ht] at ih
          exact List.chain'_cons.mpr ⟨fun h => hb h.2, ih⟩
      · rw [if_neg ha]
        refine List.chain'_cons'.mpr ⟨fun y _ h => ha h.1, ih⟩

theorem cwr_canon (s : Chars) : wsCanon (collapseWsRuns s) :=
  ⟨cwr_spaceOnly s, cwr_noAdj s⟩

theorem cwr_id : ∀ t : Chars, wsCanon t → collapseWsRuns t = t := by
  intro t
  induction t with
  | nil => intro _; rfl
  | cons a t' ih =>
    intro h
    obtain ⟨hso, hch⟩ := h
    cases t' with
    | nil =>
      simp only [collapseWsRuns]
      by_cases ha : pyWs a = true
      · rw [if_pos ha, hso a (List.mem_cons_self _ _) ha]
      · rw [if_neg ha]
    | cons b r =>
      have htl : wsCanon (b :: r) :=
        ⟨fun c hc hw => hso c (List.mem_cons_of_mem _ hc) hw,
         (List.chain'_cons'.mp hch).2⟩
      by_cases ha : pyWs a = true
      · have hb : pyWs b = false := by
          have hab := (List.chain'_cons.mp hch).1
          by_contra hb'
          exact hab ⟨ha, by simpa using hb'⟩
        have ha' : a = ' ' := hso a (List.mem_cons_self _ _) ha
        simp only [collapseWsRuns]
        rw [if_pos ha, if_neg (by simp [hb])]
        rw [ha', ih htl]
      · simp only [collapseWsRuns]
        rw [if_neg ha, ih htl]

theorem cwr_idem (s : Chars) :
    collapseWsRuns (collapseWsRuns s) = collapseWsRuns s :=
  cwr_id _ (cwr_canon s)

/-! ## Idempotence machinery: hyphen-break removal -/

theorem dhbGo_mem : ∀ (s : Chars) (b : Bool), ∀ c ∈ dropHyphenBreaksGo b s, c ∈ s := by
  intro s
  induction s with
  | nil => intro b c hc; simp [dropHyphenBreaksGo] at hc
  | cons a s' ih =>
    intro b c hc
    simp only [dropHyphenBreaksGo] at hc
    by_cases h1 : (b && pyWs a) = true
    · rw [if_pos h1] at hc
      exact List.mem_cons_of_mem _ (ih true c hc)
    · rw [if_neg h1] at hc
      by_cases h2 : (a = '-' && headWs s') = true
      · rw [if_pos h2] at hc
        exact List.mem_cons_of_mem _ (ih true c hc)
      · rw [if_neg h2] at hc
        rcases List.mem_cons.mp hc with h | h
        · simp [h]
        · exact List.mem_cons_of_mem _ (ih false c h)

theorem dhbGo_true_headWs : ∀ s : Chars, headWs (dropHyphenBreaksGo true s) = false := by
  intro s
  induction s with
  | nil => rfl
  | cons a s' ih =>
    simp only [dropHyphenBreaksGo]
    by_cases h1 : (true && pyWs a) = true
    · rw [if_pos h1]; exact ih
    · rw [if_neg h1]
      by_cases h2 : (a = '-' && headWs s') = true
      · rw [if_pos h2]; exact ih
      · rw [if_neg h2]
        simp only [headWs]
        simpa using h1

theorem dhbGo_false_headWs (s : Chars) (h : headWs s = false) :
    headWs (dropHyphenBreaksGo false s) = false := by
  cases s with
  | nil => rfl
  | cons a s' =>
    simp only [dropHyphenBreaksGo]
    rw [if_neg (by simp)]
    by_cases h2 : (a = '-' && headWs s') = true
    · rw [if_pos h2]; exact dhbGo_true_headWs s'
    · rw [if_neg h2]
      simp only [headWs] at h ⊢
      exact h

theorem dhb_noHypWs : ∀ (s : Chars) (b : Bool), noHypWs (dropHyphenBreaksGo b s) := by
  intro s
  induction s with
  | nil => intro b; exact List.chain'_nil
  | cons a s' ih =>
    intro b
    simp only [dropHyphenBreaksGo]
    by_cases h1 : (b && pyWs a) = true
    · rw [if_pos h1]; exact ih true
    · rw [if_neg h1]
      by_cases h2 : (a = '-' && headWs s') = true
      · rw [if_pos h2]; exact ih true
      · rw [if_neg h2]
        refine List.chain'_cons'.mpr ⟨?_, ih false⟩
        intro y hy hcon
        obtain ⟨hha, hwy⟩ := hcon
        have hhw : headWs s' = false := by
          simp only [Bool.and_eq_true, decide_eq_true_eq] at h2
          rcases Bool.eq_false_or_eq_true (headWs s') with h' | h'
          · exact absurd ⟨hha, h'⟩ h2
          · exact h'
        have hh := dhbGo_false_headWs s' hhw
        rw [headWs_eq_false_iff] at hh
        rw [hh y hy] at hwy
        cases hwy

theorem dhb_id : ∀ t : Chars, noHypWs t → dropHyphenBreaksGo false t = t := by
  intro t
  induction t with
  | nil => intro _; rfl
  | cons a t' ih =>
    intro h
    simp only [dropHyphenBreaksGo]
    rw [if_neg (by simp)]
    have h2 : (a = '-' && headWs t') = false := by
      cases t' with
      | nil => simp [headWs]
      | cons d ds =>
        have hp := (List.chain'_cons'.mp h).1 d rfl
        by_cases hha : a = '-'
        · have hd : pyWs d = false := by
            rcases Bool.eq_false_or_eq_true (pyWs d) with h' | h'
            · exact absurd ⟨hha, h'⟩ hp
            · exact h'
          simp [headWs, hd]
        · simp [headWs, hha]
    rw [if_neg (by simp [h2])]
    rw [ih (List.chain'_cons'.mp h).2]

/-! ## Idempotence machinery: whitespace before punctuation -/

theorem par_cons_ws {d : Char} (ds : Chars) (hd : pyWs d = true) :
    punctAfterRun (d :: ds) = punctAfterRun ds := by
  simp [punctAfterRun, List.dropWhile_cons, hd]

theorem par_cons_nws {d : Char} (ds : Chars) (hd : pyWs d = false) :
    punctAfterRun (d :: ds) = isPunctCh d := by
  simp [punctAfterRun, List.dropWhile_cons, hd]

theorem dwbp_mem : ∀ s : Chars, ∀ c ∈ dropWsBeforePunct s, c ∈ s := by
  intro s
  induction s with
  | nil => intro c hc; simp [dropWsBeforePunct] at hc
  | cons d ds ih =>
    intro c hc
    simp only [dropWsBeforePunct] at hc
    by_cases h1 : (pyWs d && punctAfterRun ds) = true
    · rw [if_pos h1] at hc
      exact List.mem_cons_of_mem _ (ih c hc)
    · rw [if_neg h1] at hc
      rcases List.mem_cons.mp hc with h | h
      · simp [h]
      · exact List.mem_cons_of_mem _ (ih c h)

theorem dwbp_headWs (s : Chars) (h : headWs s = false) :
    headWs (dropWsBeforePunct s) = false := by
  cases s with
  | nil => rfl
  | cons d ds =>
    simp only [headWs] at h
    simp only [dropWsBeforePunct]
    rw [if_neg (by simp [h])]
    simpa [headWs] using h

theorem dwbp_head_not_punct : ∀ s : Chars, punctAfterRun s = false →
    ∀ y ∈ (dropWsBeforePunct s).head?, isPunctCh y = false := by
  intro s
  induction s with
  | nil => intro _ y hy; simp [dropWsBeforePunct] at hy
  | cons d ds ih =>
    intro hpar y hy
    simp only [dropWsBeforePunct] at hy
    by_cases h1 : (pyWs d && punctAfterRun ds) = true
    · rw [if_pos h1] at hy
      obtain ⟨hdw, hds⟩ := Bool.and_eq_true_iff.mp h1
      rw [par_cons_ws ds hdw, hds] at hpar
      cases hpar
    · rw [if_neg h1] at hy
      simp only [List.head?_cons, Option.mem_def, Option.some.injEq] at hy
      subst hy
      rcases Bool.eq_false_or_eq_true (pyWs d) with hd | hd
      · rcases Bool.eq_false_or_eq_true (isPunctCh d) with hp | hp
        · rw [punct_ne_ws hp] at hd
          cases hd
        · exact hp
      · rw [par_cons_nws ds hd] at hpar
        exact hpar

theorem dwbp_noWsPunct : ∀ u : Chars, noWsPunct (dropWsBeforePunct u) := by
  intro u
  induction u with
  | nil => exact List.chain'_nil
  | cons d ds ih =>
    simp only [dropWsBeforePunct]
    by_cases h1 : (pyWs d && punctAfterRun ds) = true
    · rw [if_pos h1]; exact ih
    · rw [if_neg h1]
      refine List.chain'_cons'.mpr ⟨?_, ih⟩
      intro y hy hcon
      obtain ⟨hdw, hpy⟩ := hcon
      have hds : punctAfterRun ds = false := by
        rcases Bool.eq_false_or_eq_true (punctAfterRun ds) with h' | h'
        · exact absurd (by rw [hdw, h']; rfl : (pyWs d && punctAfterRun ds) = true) h1
        · exact h'
      rw [dwbp_head_not_punct ds hds y hy] at hpy
      cases hpy

theorem dwbp_noAdj : ∀ u : Chars, noAdjWs u → noAdjWs (dropWsBeforePunct u) := by
  intro u
  induction u with
  | nil => intro _; exact List.chain'_nil
  | cons d ds ih =>
    intro h
    simp only [dropWsBeforePunct]
    by_cases h1 : (pyWs d && punctAfterRun ds) = true
    · rw [if_pos h1]
      exact ih (List.chain'_cons'.mp h).2
    · rw [if_neg h1]
      refine List.chain'_cons'.mpr ⟨?_, ih (List.chain'_cons'.mp h).2⟩
      intro y hy hcon
      obtain ⟨hdw, hwy⟩ := hcon
      have hh : headWs ds = false := by
        rw [headWs_eq_false_iff]
        intro z hz
        have hz' := (List.chain'_cons'.mp h).1 z hz
        rcases Bool.eq_false_or_eq_true (pyWs z) with h' | h'
        · exact absurd ⟨hdw, h'⟩ hz'
        · exact h'
      have hhd := dwbp_headWs ds hh
      rw [headWs_eq_false_iff] at hhd
      rw [hhd y hy] at hwy
      cases hwy

theorem dwbp_canon (u : Chars) (hu : wsCanon u) : wsCanon (dropWsBeforePunct u) :=
  ⟨fun c hc hw => hu.1 c (dwbp_mem u c hc) hw, dwbp_noAdj u hu.2⟩

theorem dwbp_id : ∀ t : Chars, wsCanon t → noWsPunct t → dropWsBeforePunct t = t := by
  intro t
  induction t with
  | nil => intro _ _; rfl
  | cons d ds ih =>
    intro hc hp
    simp only [dropWsBeforePunct]
    have hcond : (pyWs d && punctAfterRun ds) = false := by
      rcases Bool.eq_false_or_eq_true (pyWs d) with hd | hd
      · have hh : headWs ds = false := by
          rw [headWs_eq_false_iff]
          intro y hy
          have hy' := (List.chain'_cons'.mp hc.2).1 y hy
          rcases Bool.eq_false_or_eq_true (pyWs y) with h' | h'
          · exact absurd ⟨hd, h'⟩ hy'
          · exact h'
        cases ds with
        | nil => simp [punctAfterRun, List.dropWhile_nil]
        | cons e es =>
          simp only [headWs] at hh
          rw [par_cons_nws es hh]
          have he := (List.chain'_cons'.mp hp).1 e rfl
          rcases Bool.eq_false_or_eq_true (isPunctCh e) with h' | h'
          · exact absurd ⟨hd, h'⟩ he
          · simp [h']
      · simp [hd]
    rw [if_neg (by simp [hcond])]
    rw [ih ⟨fun c hc' hw => hc.1 c (List.mem_cons_of_mem _ hc') hw,
      (List.chain'_cons'.mp hc.2).2⟩ (List.chain'_cons'.mp hp).2]

/-! ## Idempotence machinery: space after punctuation, strip -/

theorem osapGo_mem : ∀ (s : Chars) (b : Bool), ∀ c ∈ oneSpaceAfterPunctGo b s,
    c ∈ s ∨ c = ' ' := by
  intro s
  induction s with
  | nil => intro b c hc; simp [oneSpaceAfterPunctGo] at hc
  | cons a s' ih =>
    intro b c hc
    simp only [oneSpaceAfterPunctGo] at hc
    by_cases h1 : (b && pyWs a) = true
    · rw [if_pos h1] at hc
      rcases ih true c hc with h | h
      · exact Or.inl (List.mem_cons_of_mem _ h)
      · exact Or.inr h
    · rw [if_neg h1] at hc
      by_cases h2 : (isPunctCh a && headWs s') = true
      · rw [if_pos h2] at hc
        rcases List.mem_cons.mp hc with h | h
        · exact Or.inl (by simp [h])
        · rcases List.mem_cons.mp h with h' | h'
          · exact Or.inr h'
          · rcases ih true c h' with h'' | h''
            · exact Or.inl (List.mem_cons_of_mem _ h'')
            · exact Or.inr h''
      · rw [if_neg h2] at hc
        rcases List.mem_cons.mp hc with h | h
        · exact Or.inl (by simp [h])
        · rcases ih false c h with h'' | h''
          · exact Or.inl (List.mem_cons_of_mem _ h'')
          · exact Or.inr h''

theorem osapGo_flag (s : Chars) (h : headWs s = false) :
    oneSpaceAfterPunctGo true s = oneSpaceAfterPunctGo false s := by
  cases s with
  | nil => rfl
  | cons a s' =>
    simp only [headWs] at h
    simp only [oneSpaceAfterPunctGo]
    rw [if_neg (show ¬((true && pyWs a) = true) from by simp [h]),
        if_neg (show ¬((false && pyWs a) = true) from by simp)]

theorem osapGo_id_n : ∀ (n : ℕ) (t : Chars), t.length ≤ n → wsCanon t →
    oneSpaceAfterPunctGo false t = t := by
  intro n
  induction n with
  | zero =>
    intro t ht _
    have ht' : t = [] := List.eq_nil_of_length_eq_zero (Nat.le_zero.mp ht)
    subst ht'
    rfl
  | succ n ih =>
    intro t ht hcanon
    cases t with
    | nil => rfl
    | cons c cs =>
      simp only [oneSpaceAfterPunctGo]
      rw [if_neg (by simp)]
      by_cases h2 : (isPunctCh c && headWs cs) = true
      · rw [if_pos h2]
        obtain ⟨hpc, hws⟩ := Bool.and_eq_true_iff.mp h2
        cases cs with
        | nil => cases hws
        | cons d ds =>
          simp only [headWs] at hws
          have hd : d = ' ' := hcanon.1 d (by simp) hws
          have hds : headWs ds = false := by
            rw [headWs_eq_false_iff]
            intro z hz
            have hz' := (List.chain'_cons'.mp (List.chain'_cons'.mp hcanon.2).2).1 z hz
            rcases Bool.eq_false_or_eq_true (pyWs z) with h' | h'
            · exact absurd ⟨hws, h'⟩ hz'
            · exact h'
          have hgo : oneSpaceAfterPunctGo true (d :: ds) = ds := by
            simp only [oneSpaceAfterPunctGo]
            rw [if_pos (by simp [hws])]
            rw [osapGo_flag ds hds]
            refine ih ds (by simp at ht; omega)
              ⟨fun x hx hw => hcanon.1 x (List.mem_cons_of_mem _ (List.mem_cons_of_mem _ hx)) hw,
               (List.chain'_cons'.mp (List.chain'_cons'.mp hcanon.2).2).2⟩
          rw [hgo, hd]
      · rw [if_neg h2]
        rw [ih cs (by simp at ht; omega)
          ⟨fun x hx hw => hcanon.1 x (List.mem_cons_of_mem _ hx) hw,
           (List.chain'_cons'.mp hcanon.2).2⟩]

theorem osap_id (t : Chars) (h : wsCanon t) : oneSpaceAfterPunct t = t := by
  rw [oneSpaceAfterPunct]
  exact osapGo_id_n t.length t le_rfl h

theorem lstrip_id (t : Chars) (h : headWs t = false) : lstripWs t = t := by
  cases t with
  | nil => rfl
  | cons c cs =>
    simp only [headWs] at h
    simp [lstripWs, List.dropWhile_cons, h]

theorem lstrip_headWs (t : Chars) : headWs (lstripWs t) = false := by
  induction t with
  | nil => rfl
  | cons c cs ih =>
    simp only [lstripWs, List.dropWhile_cons]
    by_cases hc : pyWs c = true
    · rw [if_pos hc]
      simpa [lstripWs] using ih
    · rw [if_neg hc]
      simpa [headWs] using hc

theorem lstrip_suffix (t : Chars) : lstripWs t <:+ t := by
  induction t with
  | nil => exact List.suffix_refl _
  | cons c cs ih =>
    simp only [lstripWs, List.dropWhile_cons]
    by_cases hc : pyWs c = true
    · rw [if_pos hc]
      exact (by simpa [lstripWs] using ih : List.dropWhile pyWs cs <:+ cs).trans
        (List.suffix_cons _ _)
    · rw [if_neg hc]

theorem rstrip_pre : ∀ t : Chars, rstripWs t <+: t := by
  intro t
  induction t with
  | nil => exact List.prefix_refl _
  | cons c cs ih =>
    rw [rstripWs]
    cases h : rstripWs cs with
    | nil =>
      by_cases hc : pyWs c = true
      · rw [if_pos hc]
        exact List.nil_prefix
      · rw [if_neg hc]
        exact ⟨cs, rfl⟩
    | cons e es =>
      rw [h] at ih
      obtain ⟨u, hu⟩ := ih
      exact ⟨u, by simp [hu]⟩

theorem rstrip_last : ∀ t : Chars, ∀ y ∈ (rstripWs t).getLast?, pyWs y = false := by
  intro t
  induction t with
  | nil => intro y hy; simp [rstripWs] at hy
  | cons c cs ih =>
    intro y hy
    rw [rstripWs] at hy
    cases h : rstripWs cs with
    | nil =>
      rw [h] at hy
      by_cases hc : pyWs c = true
      · rw [if_pos hc] at hy
        simp at hy
      · rw [if_neg hc] at hy
        simp at hy
        subst hy
        simpa using hc
    | cons e es =>
      rw [h] at hy
      have hy' : y ∈ List.getLast? (c :: e :: es) := hy
      rw [List.getLast?_cons_cons] at hy'
      exact ih y (by rw [h]; exact hy')

theorem rstrip_id : ∀ t : Chars, (∀ y ∈ t.getLast?, pyWs y = false) → rstripWs t = t := by
  intro t
  induction t with
  | nil => intro _; rfl
  | cons c cs ih =>
    intro h
    cases cs with
    | nil =>
      have hc : pyWs c = false := h c (by simp)
      simp [rstripWs, hc]
    | cons d ds =>
      have htl : rstripWs (d :: ds) = d :: ds := by
        apply ih
        intro y hy
        apply h
        rw [List.getLast?_cons_cons]
        exact hy
      rw [rstripWs, htl]

theorem rstrip_headWs (t : Chars) (h : headWs t = false) :
    headWs (rstripWs t) = false := by
  cases t with
  | nil => rfl
  | cons c cs =>
    simp only [headWs] at h
    rw [rstripWs]
    cases h' : rstripWs cs with
    | nil =>
      rw [if_neg (by simp [h])]
      simpa [headWs] using h
    | cons e es =>
      simpa [headWs] using h

theorem pyStrip_headWs (t : Chars) : headWs (pyStrip t) = false :=
  rstrip_headWs _ (lstrip_headWs t)

theorem pyStrip_last (t : Chars) : ∀ y ∈ (pyStrip t).getLast?, pyWs y = false :=
  rstrip_last _

theorem pyStrip_id (t : Chars) (h1 : headWs t = false)
    (h2 : ∀ y ∈ t.getLast?, pyWs y = false) : pyStrip t = t := by
  rw [pyStrip, lstrip_id t h1, rstrip_id t h2]

theorem pyStrip_mem (t : Chars) : ∀ c ∈ pyStrip t, c ∈ t := by
  intro c hc
  rw [pyStrip] at hc
  exact (lstrip_suffix t).sublist.subset ((rstrip_pre _).sublist.subset hc)

theorem pyStrip_chain {R : Char → Char → Prop} (t : Chars) (h : List.Chain' R t) :
    List.Chain' R (pyStrip t) := by
  rw [pyStrip]
  exact List.Chain'.prefix (h.suffix (lstrip_suffix t)) (rstrip_pre _)

/-! ## Idempotence machinery: character folds and the aggressive pipeline -/

theorem foldQuotes_id : ∀ t : Chars, (∀ c ∈ t, isQuoteCh c = false) →
    foldQuotes t = t := by
  intro t
  induction t with
  | nil => intro _; rfl
  | cons c cs ih =>
    intro h
    simp only [foldQuotes, List.map_cons]
    rw [show quoteFold c = c from by
      rw [quoteFold, if_neg (by simp [h c (List.mem_cons_self _ _)])]]
    rw [show List.map quoteFold cs = cs from by
      simpa [foldQuotes] using ih (fun x hx => h x (List.mem_cons_of_mem _ hx))]

theorem foldDashes_id : ∀ t : Chars, (∀ c ∈ t, isDashCh c = false) →
    foldDashes t = t := by
  intro t
  induction t with
  | nil => intro _; rfl
  | cons c cs ih =>
    intro h
    simp only [foldDashes, List.map_cons]
    rw [show dashFold c = c from by
      rw [dashFold, if_neg (by simp [h c (List.mem_cons_self _ _)])]]
    rw [show List.map dashFold cs = cs from by
      simpa [foldDashes] using ih (fun x hx => h x (List.mem_cons_of_mem _ hx))]

theorem dropShy_id (t : Chars) (h : ∀ c ∈ t, isShy c = false) : dropShy t = t := by
  rw [dropShy]
  apply List.filter_eq_self.mpr
  intro a ha
  simp [h a ha]

theorem foldQuotes_noQuote (s : Chars) : ∀ c ∈ foldQuotes s, isQuoteCh c = false := by
  intro c hc
  rw [foldQuotes] at hc
  obtain ⟨x, hx, hfx⟩ := List.mem_map.mp hc
  rw [← hfx, quoteFold]
  by_cases hq : isQuoteCh x = true
  · rw [if_pos hq]; decide
  · rw [if_neg hq]; simpa using hq

theorem foldDashes_noDash (s : Chars) : ∀ c ∈ foldDashes s, isDashCh c = false := by
  intro c hc
  rw [foldDashes] at hc
  obtain ⟨x, hx, hfx⟩ := List.mem_map.mp hc
  rw [← hfx, dashFold]
  by_cases hq : isDashCh x = true
  · rw [if_pos hq]; decide
  · rw [if_neg hq]; simpa using hq

theorem foldDashes_mem (s : Chars) : ∀ c ∈ foldDashes s, c ∈ s ∨ c = '-' := by
  intro c hc
  rw [foldDashes] at hc
  obtain ⟨x, hx, hfx⟩ := List.mem_map.mp hc
  rw [← hfx, dashFold]
  by_cases hq : isDashCh x = true
  · rw [if_pos hq]; exact Or.inr rfl
  · rw [if_neg hq]; exact Or.inl hx

theorem dropShy_mem (s : Chars) : ∀ c ∈ dropShy s, c ∈ s :=
  fun c hc => (List.mem_filter.mp hc).1

theorem dropShy_noShy (s : Chars) : ∀ c ∈ dropShy s, isShy c = false := by
  intro c hc
  have h := (List.mem_filter.mp hc).2
  simpa using h

theorem cwr_noHyp : ∀ u : Chars, noHypWs u → noHypWs (collapseWsRuns u) := by
  intro u
  induction u with
  | nil => intro _; exact List.chain'_nil
  | cons a u' ih =>
    intro h
    cases u' with
    | nil =>
      simp only [collapseWsRuns]
      by_cases ha : pyWs a = true
      · rw [if_pos ha]; exact List.chain'_singleton _
      · rw [if_neg ha]; exact List.chain'_singleton _
    | cons b r =>
      have htl := ih (List.chain'_cons'.mp h).2
      simp only [collapseWsRuns]
      by_cases ha : pyWs a = true
      · rw [if_pos ha]
        by_cases hb : pyWs b = true
        · rw [if_pos hb]; exact htl
        · rw [if_neg hb]
          obtain ⟨t, ht⟩ := cwr_head r (by simpa using hb)
          rw [ht]
          rw [ht] at htl
          exact List.chain'_cons.mpr ⟨fun hcon => absurd hcon.1 (by decide), htl⟩
      · rw [if_neg ha]
        by_cases hha : a = '-'
        · have hb : pyWs b = false := by
            have hab := (List.chain'_cons.mp h).1
            rcases Bool.eq_false_or_eq_true (pyWs b) with h' | h'
            · exact absurd ⟨hha, h'⟩ hab
            · exact h'
          obtain ⟨t, ht⟩ := cwr_head r hb
          rw [ht]
          rw [ht] at htl
          exact List.chain'_cons.mpr ⟨fun hcon => by simp [hb] at hcon, htl⟩
        · refine List.chain'_cons'.mpr ⟨fun y _ hcon => hha hcon.1, htl⟩

theorem dwbp_noHypWs : ∀ u : Chars, noHypWs u → noHypWs (dropWsBeforePunct u) := by
  intro u
  induction u with
  | nil => intro _; exact List.chain'_nil
  | cons d ds ih =>
    intro h
    simp only [dropWsBeforePunct]
    by_cases h1 : (pyWs d && punctAfterRun ds) = true
    · rw [if_pos h1]
      exact ih (List.chain'_cons'.mp h).2
    · rw [if_neg h1]
      refine List.chain'_cons'.mpr ⟨?_, ih (List.chain'_cons'.mp h).2⟩
      intro y hy hcon
      obtain ⟨hd, hwy⟩ := hcon
      have hh : headWs ds = false := by
        rw [headWs_eq_false_iff]
        intro z hz
        have hz' := (List.chain'_cons'.mp h).1 z hz
        rcases Bool.eq_false_or_eq_true (pyWs z) with h' | h'
        · exact absurd ⟨hd, h'⟩ hz'
        · exact h'
      have hhd := dwbp_headWs ds hh
      rw [headWs_eq_false_iff] at hhd
      rw [hhd y hy] at hwy
      cases hwy

theorem nta_nf (s : Chars) :
    (∀ c ∈ normalize_text_aggressive s,
      isQuoteCh c = false ∧ isDashCh c = false ∧ isShy c = false) ∧
    wsCanon (normalize_text_aggressive s) ∧
    noHypWs (normalize_text_aggressive s) ∧
    noWsPunct (normalize_text_aggressive s) ∧
    headWs (normalize_text_aggressive s) = false ∧
    (∀ y ∈ (normalize_text_aggressive s).getLast?, pyWs y = false) := by
  rw [normalize_text_aggressive]
  set w := collapseWsRuns (dropHyphenBreaks (dropShy (foldDashes (foldQuotes s)))) with hw
  set p := dropWsBeforePunct w with hp
  have hwc : wsCanon w := cwr_canon _
  have hpc : wsCanon p := dwbp_canon _ hwc
  rw [osap_id p hpc]
  refine ⟨?_, ?_, ?_, ?_, ?_, ?_⟩
  · intro c hc
    have hcp : c ∈ p := pyStrip_mem _ _ hc
    have hcw : c ∈ w := dwbp_mem _ _ hcp
    rcases cwr_mem _ c hcw with ⟨hmem, _⟩ | hsp
    · have h1 : c ∈ dropShy (foldDashes (foldQuotes s)) := dhbGo_mem _ _ c hmem
      have h2 : c ∈ foldDashes (foldQuotes s) := dropShy_mem _ c h1
      refine ⟨?_, foldDashes_noDash _ c h2, dropShy_noShy _ c h1⟩
      rcases foldDashes_mem _ c h2 with h3 | h3
      · exact foldQuotes_noQuote s c h3
      · subst h3; decide
    · subst hsp; exact ⟨by decide, by decide, by decide⟩
  · exact ⟨fun c hc hw' => hpc.1 c (pyStrip_mem _ c hc) hw', pyStrip_chain _ hpc.2⟩
  · exact pyStrip_chain _ (dwbp_noHypWs w (cwr_noHyp _ (dhb_noHypWs _ false)))
  · exact pyStrip_chain _ (dwbp_noWsPunct w)
  · exact pyStrip_headWs p
  · exact pyStrip_last p

theorem nta_idem (s : Chars) :
    normalize_text_aggressive (normalize_text_aggressive s)
      = normalize_text_aggressive s := by
  obtain ⟨hcls, hcanon, hhyp, hwsp, hhead, hlast⟩ := nta_nf s
  set t := normalize_text_aggressive s with ht
  rw [normalize_text_aggressive]
  rw [foldQuotes_id t (fun c hc => (hcls c hc).1)]
  rw [foldDashes_id t (fun c hc => (hcls c hc).2.1)]
  rw [dropShy_id t (fun c hc => (hcls c hc).2.2)]
  rw [show dropHyphenBreaks t = t from dhb_id t hhyp]
  rw [cwr_id t hcanon]
  rw [dwbp_id t hcanon hwsp]
  rw [osap_id t hcanon]
  exact pyStrip_id t hhead hlast

/-! ## Idempotence machinery: the selection-script variants -/

theorem sel_nta_nf (s : Chars) :
    (∀ c ∈ Sel.normalize_text_aggressive s,
      isQuoteCh c = false ∧ isDashCh c = false ∧ isShy c = false) ∧
    wsCanon (Sel.normalize_text_aggressive s) ∧
    headWs (Sel.normalize_text_aggressive s) = false ∧
    (∀ y ∈ (Sel.normalize_text_aggressive s).getLast?, pyWs y = false) := by
  rw [Sel.normalize_text_aggressive]
  set w := collapseWsRuns (dropShy (foldDashes (foldQuotes s))) with hw
  have hwc : wsCanon w := cwr_canon _
  refine ⟨?_, ?_, pyStrip_headWs w, pyStrip_last w⟩
  · intro c hc
    have hcw : c ∈ w := pyStrip_mem _ _ hc
    rcases cwr_mem _ c hcw with ⟨hmem, _⟩ | hsp
    · have h2 : c ∈ foldDashes (foldQuotes s) := dropShy_mem _ c hmem
      refine ⟨?_, foldDashes_noDash _ c h2, dropShy_noShy _ c hmem⟩
      rcases foldDashes_mem _ c h2 with h3 | h3
      · exact foldQuotes_noQuote s c h3
      · subst h3; decide
    · subst hsp; exact ⟨by decide, by decide, by decide⟩
  · exact ⟨fun c hc hw' => hwc.1 c (pyStrip_mem _ c hc) hw', pyStrip_chain _ hwc.2⟩

theorem sel_nta_idem (s : Chars) :
    Sel.normalize_text_aggressive (Sel.normalize_text_aggressive s)
      = Sel.normalize_text_aggressive s := by
  obtain ⟨hcls, hcanon, hhead, hlast⟩ := sel_nta_nf s
  set t := Sel.normalize_text_aggressive s with ht
  rw [Sel.normalize_text_aggressive]
  rw [foldQuotes_id t (fun c hc => (hcls c hc).1)]
  rw [foldDashes_id t (fun c hc => (hcls c hc).2.1)]
  rw [dropShy_id t (fun c hc => (hcls c hc).2.2)]
  rw [cwr_id t hcanon]
  exact pyStrip_id t hhead hlast

theorem pySplitGo_words : ∀ (s acc : Chars), (∀ c ∈ acc, pyWs c = false) →
    ∀ w ∈ pySplitGo acc s, w ≠ [] ∧ ∀ c ∈ w, pyWs c = false := by
  intro s
  induction s with
  | nil =>
    intro acc hacc w hw
    simp only [pySplitGo] at hw
    by_cases ha : acc = []
    · rw [if_pos ha] at hw
      simp at hw
    · rw [if_neg ha] at hw
      simp only [List.mem_singleton] at hw
      subst hw
      exact ⟨by simpa using ha, fun c hc => hacc c (List.mem_reverse.mp hc)⟩
  | cons c cs ih =>
    intro acc hacc w hw
    simp only [pySplitGo] at hw
    by_cases hc : pyWs c = true
    · rw [if_pos hc] at hw
      by_cases ha : acc = []
      · rw [if_pos ha] at hw
        exact ih [] (by simp) w hw
      · rw [if_neg ha] at hw
        rcases List.mem_cons.mp hw with h | h
        · subst h
          exact ⟨by simpa using ha, fun x hx => hacc x (List.mem_reverse.mp hx)⟩
        · exact ih [] (by simp) w h
    · rw [if_neg hc] at hw
      refine ih (c :: acc) ?_ w hw
      intro x hx
      rcases List.mem_cons.mp hx with h | h
      · subst h; simpa using hc
      · exact hacc x h

theorem pySplit_words (s : Chars) :
    ∀ w ∈ pySplit s, w ≠ [] ∧ ∀ c ∈ w, pyWs c = false :=
  pySplitGo_words s [] (by simp)

theorem pySplitGo_append : ∀ (w acc s : Chars), (∀ c ∈ w, pyWs c = false) →
    pySplitGo acc (w ++ s) = pySplitGo (w.reverse ++ acc) s := by
  intro w
  induction w with
  | nil => intro acc s _; simp
  | cons c w' ih =>
    intro acc s h
    have hc : pyWs c = false := h c (List.mem_cons_self _ _)
    simp only [List.cons_append, pySplitGo]
    rw [if_neg (by simp [hc])]
    show pySplitGo (c :: acc) (w' ++ s) = pySplitGo ((c :: w').reverse ++ acc) s
    rw [ih (c :: acc) s (fun x hx => h x (List.mem_cons_of_mem _ hx))]
    congr 1
    simp

theorem joinSpace_cons (w : Chars) (rest : List Chars) :
    joinSpace (w :: rest) = w ++ sepJoin rest := by
  cases rest with
  | nil => simp [joinSpace, sepJoin]
  | cons x xs => rfl

theorem pySplitGo_sepJoin : ∀ (ws : List Chars) (acc : Chars),
    (∀ w ∈ ws, w ≠ [] ∧ ∀ c ∈ w, pyWs c = false) → acc ≠ [] →
    pySplitGo acc (sepJoin ws) = acc.reverse :: ws := by
  intro ws
  induction ws with
  | nil =>
    intro acc _ hacc
    simp only [sepJoin, pySplitGo]
    rw [if_neg hacc]
  | cons w rest ih =>
    intro acc hws hacc
    simp only [sepJoin, pySplitGo]
    rw [if_pos (by decide : pyWs ' ' = true), if_neg hacc]
    congr 1
    rw [joinSpace_cons]
    rw [pySplitGo_append w [] (sepJoin rest) (hws w (List.mem_cons_self _ _)).2]
    rw [List.append_nil]
    rw [ih w.reverse (fun x hx => hws x (List.mem_cons_of_mem _ hx))
        (by simpa using (hws w (List.mem_cons_self _ _)).1)]
    simp

theorem pySplit_joinSpace (L : List Chars)
    (h : ∀ w ∈ L, w ≠ [] ∧ ∀ c ∈ w, pyWs c = false) :
    pySplit (joinSpace L) = L := by
  cases L with
  | nil => rfl
  | cons w rest =>
    rw [pySplit, joinSpace_cons]
    rw [pySplitGo_append w [] (sepJoin rest) (h w (List.mem_cons_self _ _)).2]
    rw [List.append_nil]
    rw [pySplitGo_sepJoin rest w.reverse (fun x hx => h x (List.mem_cons_of_mem _ hx))
        (by simpa using (h w (List.mem_cons_self _ _)).1)]
    simp

/-- C5: all four normalizers are idempotent — the regex whitespace collapse
and the aggressive quote/dash/hyphen/whitespace/punctuation pipeline of
find_text_in_pdf.py, and the split-join whitespace normalizer and shorter
aggressive pipeline of get_pdf_selection_rects.py. -/
theorem c5_idempotent (s : Chars) :
    normalize_whitespace (normalize_whitespace s) = normalize_whitespace s ∧
    normalize_text_aggressive (normalize_text_aggressive s)
      = normalize_text_aggressive s ∧
    Sel.normalize_whitespace (Sel.normalize_whitespace s)
      = Sel.normalize_whitespace s ∧
    Sel.normalize_text_aggressive (Sel.normalize_text_aggressive s)
      = Sel.normalize_text_aggressive s := by
  refine ⟨cwr_idem s, nta_idem s, ?_, sel_nta_idem s⟩
  simp only [Sel.normalize_whitespace]
  rw [pySplit_joinSpace (pySplit s) (pySplit_words s)]

end Rhizome
